import Mathlib

/-!
Verification development for the osm-to-route-snapper converter
(src/osm-to-route-snapper/src/lib.rs).

The converter turns a stream of parsed OSM elements into a routing graph:
scrape_elements builds a raw-node-id to coordinate table and a table of
highway-tagged ways; split_edges splits every way into edges at intersection
points, deduplicating intersection nodes across ways through a lazily
populated raw-node-id to graph-node-index table.

Modelling choices:
- Rust f64 coordinates are modelled with exact rationals.
- Rust HashMaps are modelled as key-value lists with first-match lookup and
  replace-or-append insertion; iteration order of the way table is an
  explicit list argument (HashMap order is arbitrary).
- Rust panics (indexing an empty vector, unwrap of a missing entry, the
  unchecked nodes[&node] lookup) are modelled by Option, none meaning abort.
- The u32 NodeID cast is modelled by reducing the assigned index mod 2^32.
- The haversine distance of one segment is an abstract parameter hav; the
  geo crate capability HaversineLength is its sum along consecutive pairs.
-/

set_option maxHeartbeats 1000000

namespace RouteSnapper

/-- Geographic coordinate, modelling geo::Coord (x = longitude, y = latitude).
The Rust code stores f64 values; we model them with exact rationals. -/
structure Coord where
  x : ℚ
  y : ℚ
deriving DecidableEq, Repr

/-- Raw OSM node identifier (osm_reader::NodeID wraps an i64). -/
abbrev OsmNodeID := Int

/-- A retained way: optional display name and the ordered raw node ids. -/
structure Way where
  name : Option String
  nodes : List OsmNodeID
deriving DecidableEq, Repr

/-- Edge of the output graph (route_snapper_graph::Edge as used by the source).
Node indices are u32 values, modelled as Nat assigned mod 2^32. -/
structure Edge where
  node1 : Nat
  node2 : Nat
  geometry : List Coord
  length_meters : ℚ
  name : Option String
deriving DecidableEq, Repr

/-- Output graph (route_snapper_graph::RouteSnapperMap as used by the source). -/
structure RouteSnapperMap where
  nodes : List Coord
  edges : List Edge
deriving DecidableEq, Repr

/-- First-match lookup in a key-value list (the mapping held by a HashMap). -/
def alookup {κ α : Type} [DecidableEq κ] : List (κ × α) → κ → Option α
  | [], _ => none
  | (k, v) :: rest, key => if key = k then some v else alookup rest key

/-- HashMap::insert projected to the key-value list model: replace the value
of an existing key in place, otherwise append the new entry. -/
def insertA {κ α : Type} [DecidableEq κ] (m : List (κ × α)) (k : κ) (v : α) :
    List (κ × α) :=
  match alookup m k with
  | some _ => m.map (fun p => if p.1 = k then (k, v) else p)
  | none => m ++ [(k, v)]

/-- Parsed OSM element stream (osm_reader::Element) as the external parser
yields it: nodes with coordinates, ways with ordered node ids and tags,
relations (ignored). -/
inductive Element where
  | node (id : OsmNodeID) (lon lat : ℚ)
  | way (id : Int) (node_ids : List OsmNodeID) (tags : List (String × String))
  | relation
deriving DecidableEq, Repr

/-- One step of scrape_elements: the per-element closure passed to
osm_reader::parse. -/
def scrapeStep (road_names : Bool)
    (acc : List (OsmNodeID × Coord) × List (Int × Way)) (elem : Element) :
    List (OsmNodeID × Coord) × List (Int × Way) :=
  match elem with
  | .node id lon lat => (insertA acc.1 id ⟨lon, lat⟩, acc.2)
  | .way id node_ids tags =>
      if (alookup tags "highway").isSome then
        let wname := if road_names then alookup tags "name" else none
        (acc.1, insertA acc.2 id { name := wname, nodes := node_ids })
      else acc
  | .relation => acc

/-- scrape_elements: fold the per-element closure over the parsed stream,
producing the node table and the table of highway-tagged ways. -/
def scrape_elements (elems : List Element) (road_names : Bool) :
    List (OsmNodeID × Coord) × List (Int × Way) :=
  elems.foldl (scrapeStep road_names) ([], [])

/-- One increment of the node reference counter:
node_counter.entry(node).or_insert(0) += 1. -/
def incrCounter (m : List (OsmNodeID × Nat)) (n : OsmNodeID) :
    List (OsmNodeID × Nat) :=
  match alookup m n with
  | some c => m.map (fun p => if p.1 = n then (n, c + 1) else p)
  | none => m ++ [(n, 1)]

/-- The reference counting pass of split_edges: count how many way positions
reference each raw node. -/
def buildCounter (ways : List Way) : List (OsmNodeID × Nat) :=
  ways.foldl (fun acc w => w.nodes.foldl incrCounter acc) []

/-- Total number of positions across all ways that reference a raw node
(a way referencing the same node twice counts it twice). -/
def countRefs (ways : List Way) (n : OsmNodeID) : Nat :=
  (ways.map (fun w => w.nodes.count n)).sum

/-- Modelled from the spec: the geodesic length capability of the geo crate
(HaversineLength of a LineString), which the source calls but whose code is
external to this repository. Per the spec glossary it is the great-circle
distance summed along consecutive coordinate pairs of the polyline; the
single-segment distance hav is kept abstract as a parameter. -/
def haversineLength (hav : Coord → Coord → ℚ) : List Coord → ℚ
  | a :: b :: rest => hav a b + haversineLength hav (b :: rest)
  | _ => 0

/-- State of split_edges: the node_id_lookup table, the output node list and
edge list being built, plus ghost data (rawEnds) recording, for each emitted
edge, the raw OSM node ids of its two endpoints. The ghost field is not part
of the Rust output; it only lets theorems speak about edge provenance. -/
structure SplitState where
  lookup : List (OsmNodeID × Nat)
  gnodes : List Coord
  edges : List Edge
  rawEnds : List (OsmNodeID × OsmNodeID)
deriving DecidableEq, Repr

def initState : SplitState := ⟨[], [], [], []⟩

/-- Resolve the graph-node index of a raw node:
node_id_lookup.entry(raw).or_insert_with(...), pushing coordinate c onto the
output node list when the key is vacant, with next_id = lookup.len() as u32. -/
def resolveNode (lookup : List (OsmNodeID × Nat)) (gnodes : List Coord)
    (raw : OsmNodeID) (c : Coord) : Nat × List (OsmNodeID × Nat) × List Coord :=
  match alookup lookup raw with
  | some i => (i, lookup, gnodes)
  | none =>
      let nid := lookup.length % 2 ^ 32
      (nid, lookup ++ [(raw, nid)], gnodes ++ [c])

/-- The is_endpoint test of split_edges:
idx == 0 || idx == num_nodes - 1 || *node_counter.get(&node).unwrap() > 1,
with the short-circuit of || kept and the unwrap of a missing counter entry
modelled as none (a panic). -/
def isEndpointM (cnt : OsmNodeID → Option Nat) (numNodes idx : Nat)
    (node : OsmNodeID) : Option Bool :=
  if idx = 0 ∨ idx = numNodes - 1 then some true
  else
    match cnt node with
    | some c => some (decide (1 < c))
    | none => none

/-- One iteration of the inner loop of split_edges, processing the node at
position idx of the current way. State carried: the global SplitState, the
raw id node1 opening the current edge, and the accumulated polyline buffer
pts. The nodes[&node] coordinate lookups and the pts[0] and
pts.last().unwrap() accesses are Option binds (none is a panic). -/
def stepNode (coordOf : OsmNodeID → Option Coord) (hav : Coord → Coord → ℚ)
    (cnt : OsmNodeID → Option Nat) (numNodes : Nat) (wname : Option String)
    (st : SplitState) (node1 : OsmNodeID) (pts : List Coord)
    (idx : Nat) (node : OsmNodeID) :
    Option (SplitState × OsmNodeID × List Coord) :=
  match coordOf node with
  | none => none
  | some c =>
    let pts2 := pts ++ [c]
    match isEndpointM cnt numNodes idx node with
    | none => none
    | some isEndpoint =>
      if isEndpoint = true ∧ 1 < pts2.length then
        match pts2.head?, pts2.getLast? with
        | some hd, some lst =>
          let r1 := resolveNode st.lookup st.gnodes node1 hd
          let r2 := resolveNode r1.2.1 r1.2.2 node lst
          let e : Edge :=
            { node1 := r1.1, node2 := r2.1, geometry := pts2,
              length_meters := haversineLength hav pts2, name := wname }
          match coordOf node with
          | none => none
          | some c2 =>
            some ({ lookup := r2.2.1, gnodes := r2.2.2,
                    edges := st.edges ++ [e],
                    rawEnds := st.rawEnds ++ [(node1, node)] }, node, [c2])
        | _, _ => none
      else
        some (st, node1, pts2)

/-- The inner loop of split_edges over the enumerated node list of one way. -/
def walkNodes (coordOf : OsmNodeID → Option Coord) (hav : Coord → Coord → ℚ)
    (cnt : OsmNodeID → Option Nat) (numNodes : Nat) (wname : Option String) :
    SplitState → OsmNodeID → List Coord → Nat → List OsmNodeID →
    Option (SplitState × OsmNodeID × List Coord)
  | st, node1, pts, _, [] => some (st, node1, pts)
  | st, node1, pts, idx, node :: rest =>
    match stepNode coordOf hav cnt numNodes wname st node1 pts idx node with
    | none => none
    | some (st2, n1b, pts2) =>
      walkNodes coordOf hav cnt numNodes wname st2 n1b pts2 (idx + 1) rest

/-- Process one way: node1 starts as way.nodes[0] (a panic on an empty way),
then the inner loop runs over the enumerated node list. -/
def processWay (coordOf : OsmNodeID → Option Coord) (hav : Coord → Coord → ℚ)
    (cnt : OsmNodeID → Option Nat) (st : SplitState) (w : Way) :
    Option SplitState :=
  match w.nodes.head? with
  | none => none
  | some node1 =>
    match walkNodes coordOf hav cnt w.nodes.length w.name st node1 [] 0 w.nodes with
    | none => none
    | some (st2, _, _) => some st2

/-- The per-way splitting pass: fold processWay over the ways in the given
iteration order. -/
def runWays (coordOf : OsmNodeID → Option Coord) (hav : Coord → Coord → ℚ)
    (cnt : OsmNodeID → Option Nat) : SplitState → List Way → Option SplitState
  | st, [] => some st
  | st, w :: rest =>
    match processWay coordOf hav cnt st w with
    | none => none
    | some st2 => runWays coordOf hav cnt st2 rest

/-- split_edges with its internal state (node_id_lookup and the ghost
provenance data) exposed. -/
def split_edges_full (hav : Coord → Coord → ℚ) (nodes : List (OsmNodeID × Coord))
    (ways : List Way) : Option SplitState :=
  runWays (alookup nodes) hav (alookup (buildCounter ways)) initState ways

/-- split_edges: build the reference counter, then split every way into edges;
returns the output graph, none meaning a panic aborted the conversion. -/
def split_edges (hav : Coord → Coord → ℚ) (nodes : List (OsmNodeID × Coord))
    (ways : List Way) : Option RouteSnapperMap :=
  match split_edges_full hav nodes ways with
  | some st => some { nodes := st.gnodes, edges := st.edges }
  | none => none

/-- Parse failure of the external OSM reader. -/
inductive ParseError where
  | mk (msg : String)
deriving DecidableEq, Repr

/-- convert_osm: scrape elements, then split into edges. The outcome of the
external parser on the input bytes is the parameter parsed (ok with the
element stream, or a parse error, which the ? operator propagates). The
inner Option models the panic channel of split_edges, not a returned error. -/
def convert_osm (hav : Coord → Coord → ℚ)
    (parsed : Except ParseError (List Element)) (road_names : Bool) :
    Except ParseError (Option RouteSnapperMap) :=
  match parsed with
  | .error e => .error e
  | .ok elems =>
    let scraped := scrape_elements elems road_names
    .ok (split_edges hav scraped.1 (scraped.2.map Prod.snd))

/-! ### Verification-only definitions: invariants and concrete fixtures -/

/-- Invariant tying node_id_lookup to the output node list: they march in
lockstep; the entry at position k holds index k mod 2^32 and its key is a raw
node whose input coordinate is exactly the output node stored at position k;
keys never repeat. -/
structure TableInv (coordOf : OsmNodeID → Option Coord)
    (lookup : List (OsmNodeID × Nat)) (gnodes : List Coord) : Prop where
  len_eq : lookup.length = gnodes.length
  keys_nodup : (lookup.map Prod.fst).Nodup
  idx_seq : ∀ (k : Nat) (h : k < lookup.length), (lookup[k]).2 = k % 2 ^ 32
  coord_seq : ∀ (k : Nat) (h : k < lookup.length), coordOf (lookup[k]).1 = gnodes[k]?

/-- Invariant carried through the whole splitting pass: the node table
invariant holds; ghost raw endpoints run parallel to the edges; every edge
references, through the shared lookup table, the indices of its two raw
endpoints; and every edge has polyline endpoints stored at the positions its
indices denote (mod 2^32), with its length the haversine sum of its polyline. -/
structure StateInv (coordOf : OsmNodeID → Option Coord) (hav : Coord → Coord → ℚ)
    (st : SplitState) : Prop where
  table : TableInv coordOf st.lookup st.gnodes
  ends_len : st.edges.length = st.rawEnds.length
  edge_refs : ∀ (j : Nat) (h1 : j < st.edges.length) (h2 : j < st.rawEnds.length),
    alookup st.lookup (st.rawEnds[j]).1 = some (st.edges[j]).node1 ∧
    alookup st.lookup (st.rawEnds[j]).2 = some (st.edges[j]).node2
  edge_geom : ∀ e ∈ st.edges, ∃ k1 k2 : Nat,
    k1 < st.gnodes.length ∧ k2 < st.gnodes.length ∧
    e.node1 = k1 % 2 ^ 32 ∧ e.node2 = k2 % 2 ^ 32 ∧
    st.gnodes[k1]? = e.geometry.head? ∧ st.gnodes[k2]? = e.geometry.getLast? ∧
    e.length_meters = haversineLength hav e.geometry ∧ 2 ≤ e.geometry.length

/-- Concrete single-segment distance used by witnesses: squared euclidean
distance on the rational plane (the development is parametric in hav). -/
def havW : Coord → Coord → ℚ :=
  fun a b => (b.x - a.x) * (b.x - a.x) + (b.y - a.y) * (b.y - a.y)

/-- Witness node table: four raw nodes. -/
def nodesW : List (OsmNodeID × Coord) :=
  [(1, ⟨0, 0⟩), (2, ⟨1, 0⟩), (3, ⟨2, 0⟩), (4, ⟨3, 1⟩)]

/-- Witness ways: a named three-node way and an unnamed way joining it at raw
node 2, which therefore is an interior intersection of the first way. -/
def waysW : List Way := [⟨some "Elm St", [1, 2, 3]⟩, ⟨none, [4, 2]⟩]

/-- The split state that the witness input produces. -/
def stW : SplitState :=
  { lookup := [(1, 0), (2, 1), (3, 2), (4, 3)],
    gnodes := [⟨0, 0⟩, ⟨1, 0⟩, ⟨2, 0⟩, ⟨3, 1⟩],
    edges :=
      [{ node1 := 0, node2 := 1, geometry := [⟨0, 0⟩, ⟨1, 0⟩],
         length_meters := 1, name := some "Elm St" },
       { node1 := 1, node2 := 2, geometry := [⟨1, 0⟩, ⟨2, 0⟩],
         length_meters := 1, name := some "Elm St" },
       { node1 := 3, node2 := 1, geometry := [⟨3, 1⟩, ⟨1, 0⟩],
         length_meters := 5, name := none }],
    rawEnds := [(1, 2), (2, 3), (4, 2)] }

/-- The output graph that the witness input produces. -/
def mW : RouteSnapperMap := { nodes := stW.gnodes, edges := stW.edges }

/-- The third edge of the witness output. -/
def eW : Edge :=
  { node1 := 3, node2 := 1, geometry := [⟨3, 1⟩, ⟨1, 0⟩],
    length_meters := 5, name := none }

/-- The intersection-point predicate in the words of the spec: position 0,
the last position of the way, or total reference count above one. Used to
compare the code test isEndpointM against the spec. -/
abbrev isIntersectionSpec (ways : List Way) (numNodes idx : Nat)
    (node : OsmNodeID) : Prop :=
  idx = 0 ∨ idx = numNodes - 1 ∨ 1 < countRefs ways node

/-- Witness element stream: the four witness nodes and two highway ways, one
named, plus matching ids. Scraping it reproduces nodesW and waysW. -/
def elemsW : List Element :=
  [Element.node 1 0 0, Element.node 2 1 0, Element.node 3 2 0,
   Element.node 4 3 1,
   Element.way 10 [1, 2, 3] [("highway", "residential"), ("name", "Elm St")],
   Element.way 11 [4, 2] [("highway", "service")]]

/-- The split state after processing only the first witness way. -/
def stP6 : SplitState :=
  { lookup := [(1, 0), (2, 1), (3, 2)],
    gnodes := [⟨0, 0⟩, ⟨1, 0⟩, ⟨2, 0⟩],
    edges :=
      [{ node1 := 0, node2 := 1, geometry := [⟨0, 0⟩, ⟨1, 0⟩],
         length_meters := 1, name := some "Elm St" },
       { node1 := 1, node2 := 2, geometry := [⟨1, 0⟩, ⟨2, 0⟩],
         length_meters := 1, name := some "Elm St" }],
    rawEnds := [(1, 2), (2, 3)] }

/-- The first edge of the witness output. -/
def e0W : Edge :=
  { node1 := 0, node2 := 1, geometry := [⟨0, 0⟩, ⟨1, 0⟩],
    length_meters := 1, name := some "Elm St" }

/-- One inner-loop iteration with the shared state erased: returns the data
of the edge it would emit (polyline plus the raw ids of its two endpoints),
if any, and the st-independent part of the loop state. Mirrors stepNode. -/
def stepData (coordOf : OsmNodeID → Option Coord) (cnt : OsmNodeID → Option Nat)
    (numNodes : Nat) (node1 : OsmNodeID) (pts : List Coord) (idx : Nat)
    (node : OsmNodeID) :
    Option (Option (List Coord × OsmNodeID × OsmNodeID) × OsmNodeID × List Coord) :=
  match coordOf node with
  | none => none
  | some c =>
    let pts2 := pts ++ [c]
    match isEndpointM cnt numNodes idx node with
    | none => none
    | some isEndpoint =>
      if isEndpoint = true ∧ 1 < pts2.length then
        match pts2.head?, pts2.getLast? with
        | some _, some _ =>
          match coordOf node with
          | none => none
          | some c2 => some (some (pts2, node1, node), node, [c2])
        | _, _ => none
      else
        some (none, node1, pts2)

/-- The inner loop with the shared state erased: the list of edge data one
way contributes, independent of every other way. Mirrors walkNodes. -/
def walkData (coordOf : OsmNodeID → Option Coord) (cnt : OsmNodeID → Option Nat)
    (numNodes : Nat) :
    OsmNodeID → List Coord → Nat → List OsmNodeID →
    Option (List (List Coord × OsmNodeID × OsmNodeID) × OsmNodeID × List Coord)
  | node1, pts, _, [] => some ([], node1, pts)
  | node1, pts, idx, node :: rest =>
    match stepData coordOf cnt numNodes node1 pts idx node with
    | none => none
    | some (em, n1b, ptsb) =>
      match walkData coordOf cnt numNodes n1b ptsb (idx + 1) rest with
      | none => none
      | some (ds, n1c, ptsc) => some (em.toList ++ ds, n1c, ptsc)

/-- The edge data one way contributes, independent of the shared state. -/
def wayData (coordOf : OsmNodeID → Option Coord) (cnt : OsmNodeID → Option Nat)
    (w : Way) : Option (List (List Coord × OsmNodeID × OsmNodeID)) :=
  match w.nodes.head? with
  | none => none
  | some node1 =>
    match walkData coordOf cnt w.nodes.length node1 [] 0 w.nodes with
    | none => none
    | some (ds, _, _) => some ds

/-- Index-free view of an edge: polyline, length and name (what remains of
an edge once its endpoint indices are dereferenced, since by the geometry
invariant those indices carry exactly the first and last polyline points). -/
def edata (e : Edge) : List Coord × ℚ × Option String :=
  (e.geometry, e.length_meters, e.name)

/-- Per-way index-free edge data with length and name attached. -/
def wayEdata (coordOf : OsmNodeID → Option Coord) (cnt : OsmNodeID → Option Nat)
    (hav : Coord → Coord → ℚ) (w : Way) :
    List (List Coord × ℚ × Option String) :=
  ((wayData coordOf cnt w).getD []).map
    (fun d => (d.1, haversineLength hav d.1, w.name))

/-- Per-way raw endpoint id pairs. -/
def wayEnds (coordOf : OsmNodeID → Option Coord) (cnt : OsmNodeID → Option Nat)
    (w : Way) : List (OsmNodeID × OsmNodeID) :=
  ((wayData coordOf cnt w).getD []).map (fun d => (d.2.1, d.2.2))

/-- Two disjoint two-node ways, in one processing order. -/
def waysP1 : List Way := [⟨none, [1, 2]⟩, ⟨none, [3, 4]⟩]

/-- The same two ways in the opposite processing order. -/
def waysP2 : List Way := [⟨none, [3, 4]⟩, ⟨none, [1, 2]⟩]

/-- Output of splitting waysP1 over the witness node table. -/
def mP1 : RouteSnapperMap :=
  { nodes := [⟨0, 0⟩, ⟨1, 0⟩, ⟨2, 0⟩, ⟨3, 1⟩],
    edges :=
      [{ node1 := 0, node2 := 1, geometry := [⟨0, 0⟩, ⟨1, 0⟩],
         length_meters := 1, name := none },
       { node1 := 2, node2 := 3, geometry := [⟨2, 0⟩, ⟨3, 1⟩],
         length_meters := 2, name := none }] }

/-- Output of splitting waysP2 over the witness node table. -/
def mP2 : RouteSnapperMap :=
  { nodes := [⟨2, 0⟩, ⟨3, 1⟩, ⟨0, 0⟩, ⟨1, 0⟩],
    edges :=
      [{ node1 := 0, node2 := 1, geometry := [⟨2, 0⟩, ⟨3, 1⟩],
         length_meters := 2, name := none },
       { node1 := 2, node2 := 3, geometry := [⟨0, 0⟩, ⟨1, 0⟩],
         length_meters := 1, name := none }] }

/-- The first edge of mP1; no edge of mP2 equals it. -/
def eP : Edge :=
  { node1 := 0, node2 := 1, geometry := [⟨0, 0⟩, ⟨1, 0⟩],
    length_meters := 1, name := none }

/-! ### Lookup lemmas -/

@[simp] theorem alookup_nil {κ α : Type} [DecidableEq κ] (k : κ) :
    alookup ([] : List (κ × α)) k = none := rfl

@[simp] theorem alookup_cons {κ α : Type} [DecidableEq κ] (k0 : κ) (v0 : α)
    (rest : List (κ × α)) (k : κ) :
    alookup ((k0, v0) :: rest) k = if k = k0 then some v0 else alookup rest k := rfl

theorem alookup_append_some {κ α : Type} [DecidableEq κ] {m : List (κ × α)}
    {k : κ} {v : α} (l : List (κ × α)) (h : alookup m k = some v) :
    alookup (m ++ l) k = some v := by
  induction m with
  | nil => simp [alookup] at h
  | cons p rest ih =>
    obtain ⟨k0, v0⟩ := p
    by_cases hk : k = k0 <;> simp_all [alookup]

theorem alookup_append_none {κ α : Type} [DecidableEq κ] {m : List (κ × α)}
    {k : κ} (l : List (κ × α)) (h : alookup m k = none) :
    alookup (m ++ l) k = alookup l k := by
  induction m with
  | nil => simp [alookup]
  | cons p rest ih =>
    obtain ⟨k0, v0⟩ := p
    by_cases hk : k = k0 <;> simp_all [alookup]

theorem alookup_none_iff {κ α : Type} [DecidableEq κ] (m : List (κ × α)) (k : κ) :
    alookup m k = none ↔ k ∉ m.map Prod.fst := by
  induction m with
  | nil => simp [alookup]
  | cons p rest ih =>
    obtain ⟨k0, v0⟩ := p
    by_cases hk : k = k0 <;> simp_all [alookup]

theorem alookup_isSome_iff {κ α : Type} [DecidableEq κ] (m : List (κ × α)) (k : κ) :
    (alookup m k).isSome ↔ k ∈ m.map Prod.fst := by
  rw [Option.isSome_iff_ne_none, ne_eq, alookup_none_iff, not_not]

theorem alookup_mem {κ α : Type} [DecidableEq κ] {m : List (κ × α)} {k : κ}
    {v : α} (h : alookup m k = some v) : (k, v) ∈ m := by
  induction m with
  | nil => simp [alookup] at h
  | cons p rest ih =>
    obtain ⟨k0, v0⟩ := p
    by_cases hk : k = k0 <;> simp_all [alookup]

theorem alookup_map_replace {κ α : Type} [DecidableEq κ] (m : List (κ × α))
    (n : κ) (v : α) (k : κ) :
    alookup (m.map (fun p => if p.1 = n then (n, v) else p)) k =
      if k = n then (alookup m n).map (fun _ => v) else alookup m k := by
  induction m with
  | nil => by_cases h : k = n <;> simp [h]
  | cons p rest ih =>
    obtain ⟨k0, v0⟩ := p
    by_cases h1 : k0 = n
    · subst h1
      rw [List.map_cons,
        show (if ((k0, v0) : κ × α).1 = k0 then (k0, v) else (k0, v0)) = (k0, v)
          from if_pos rfl]
      by_cases h2 : k = k0
      · subst h2; simp
      · simp [h2, ih]
    · rw [List.map_cons,
        show (if ((k0, v0) : κ × α).1 = n then (n, v) else (k0, v0)) = (k0, v0)
          from if_neg h1]
      by_cases h2 : k = k0
      · subst h2
        have hkn : k ≠ n := h1
        simp [hkn]
      · simp [h2, ih, Ne.symm h1]

/-! ### Counter characterization: the lazily built HashMap counter holds
exactly the total reference count of each raw node. -/

theorem alookup_incrCounter (m : List (OsmNodeID × Nat)) (n k : OsmNodeID) :
    alookup (incrCounter m n) k =
      if k = n then some ((alookup m n).getD 0 + 1) else alookup m k := by
  unfold incrCounter
  cases hmn : alookup m n with
  | some c =>
    rw [alookup_map_replace]
    by_cases h : k = n <;> simp [h, hmn]
  | none =>
    by_cases h : k = n
    · subst h
      rw [alookup_append_none _ hmn, hmn]
      simp [alookup]
    · cases hk : alookup m k with
      | some v => rw [alookup_append_some _ hk]; simp [h, hk]
      | none => rw [alookup_append_none _ hk]; simp [alookup, h, hk]

theorem foldl_incr_getD (ns : List OsmNodeID) (m : List (OsmNodeID × Nat))
    (k : OsmNodeID) :
    (alookup (ns.foldl incrCounter m) k).getD 0 =
      (alookup m k).getD 0 + ns.count k := by
  induction ns generalizing m with
  | nil => simp
  | cons n rest ih =>
    simp only [List.foldl_cons, List.count_cons, ih, alookup_incrCounter]
    by_cases h : k = n
    · subst h; simp; omega
    · have : n ≠ k := fun hc => h hc.symm
      simp [h, this]

theorem foldl_incr_isSome (ns : List OsmNodeID) (m : List (OsmNodeID × Nat))
    (k : OsmNodeID) :
    (alookup (ns.foldl incrCounter m) k).isSome ↔
      (alookup m k).isSome ∨ k ∈ ns := by
  induction ns generalizing m with
  | nil => simp
  | cons n rest ih =>
    simp only [List.foldl_cons, ih, alookup_incrCounter, List.mem_cons]
    by_cases h : k = n
    · subst h; simp
    · simp [h]

theorem countRefs_cons (w : Way) (ways : List Way) (k : OsmNodeID) :
    countRefs (w :: ways) k = w.nodes.count k + countRefs ways k := by
  simp [countRefs]

theorem countRefs_pos_iff (ways : List Way) (k : OsmNodeID) :
    0 < countRefs ways k ↔ ∃ w ∈ ways, k ∈ w.nodes := by
  induction ways with
  | nil => simp [countRefs]
  | cons w rest ih =>
    rw [countRefs_cons]
    constructor
    · intro h
      by_cases hw : 0 < w.nodes.count k
      · exact ⟨w, by simp, List.count_pos_iff.mp hw⟩
      · have : 0 < countRefs rest k := by omega
        rcases ih.mp this with ⟨w2, hw2, hk2⟩
        exact ⟨w2, by simp [hw2], hk2⟩
    · rintro ⟨w2, hw2, hk2⟩
      rcases List.mem_cons.mp hw2 with h | h
      · subst h
        have := List.count_pos_iff.mpr hk2
        omega
      · have := ih.mpr ⟨w2, h, hk2⟩
        omega

theorem buildCounter_foldl (ways : List Way) (m : List (OsmNodeID × Nat))
    (k : OsmNodeID) :
    (alookup (ways.foldl (fun acc w => w.nodes.foldl incrCounter acc) m) k).getD 0 =
      (alookup m k).getD 0 + countRefs ways k := by
  induction ways generalizing m with
  | nil => simp [countRefs]
  | cons w rest ih =>
    simp only [List.foldl_cons, ih, foldl_incr_getD, countRefs_cons]
    omega

theorem buildCounter_foldl_isSome (ways : List Way) (m : List (OsmNodeID × Nat))
    (k : OsmNodeID) :
    (alookup (ways.foldl (fun acc w => w.nodes.foldl incrCounter acc) m) k).isSome ↔
      (alookup m k).isSome ∨ ∃ w ∈ ways, k ∈ w.nodes := by
  induction ways generalizing m with
  | nil => simp
  | cons w rest ih =>
    simp only [List.foldl_cons, ih, foldl_incr_isSome, List.mem_cons]
    constructor
    · rintro (((h | h) | ⟨w2, hw2, hk2⟩))
      · exact Or.inl h
      · exact Or.inr ⟨w, Or.inl rfl, h⟩
      · exact Or.inr ⟨w2, Or.inr hw2, hk2⟩
    · rintro (h | ⟨w2, hw2 | hw2, hk2⟩)
      · exact Or.inl (Or.inl h)
      · subst hw2; exact Or.inl (Or.inr hk2)
      · exact Or.inr ⟨w2, hw2, hk2⟩

/-- The counter table built by the reference counting pass holds, for every
raw node, exactly its total reference count (absent when it is zero). -/
theorem buildCounter_eq (ways : List Way) (k : OsmNodeID) :
    alookup (buildCounter ways) k =
      if countRefs ways k = 0 then none else some (countRefs ways k) := by
  have h1 := buildCounter_foldl ways [] k
  have h2 := buildCounter_foldl_isSome ways [] k
  simp only [alookup, Option.getD_none, Nat.zero_add, Option.isSome_none,
    Bool.false_eq_true, false_or] at h1 h2
  rw [show ways.foldl (fun acc w => w.nodes.foldl incrCounter acc) [] =
    buildCounter ways from rfl] at h1 h2
  cases hbc : alookup (buildCounter ways) k with
  | none =>
    rw [hbc] at h1
    simp at h1
    simp [← h1]
  | some v =>
    rw [hbc] at h1 h2
    simp at h1 h2
    have hpos : 0 < countRefs ways k := (countRefs_pos_iff ways k).mpr h2
    subst h1
    simp [Nat.pos_iff_ne_zero.mp hpos]

/-! ### The node table invariant and the resolve operation -/

theorem tableInv_init (coordOf : OsmNodeID → Option Coord) :
    TableInv coordOf [] [] := by
  constructor <;> simp

/-- Full specification of resolveNode: it preserves the table invariant, the
resolved raw node is afterwards in the table with the returned index, the
table and node list only grow, and the returned index points (mod 2^32) at a
position holding the pushed coordinate. -/
theorem resolveNode_spec (coordOf : OsmNodeID → Option Coord)
    (lookup : List (OsmNodeID × Nat)) (gnodes : List Coord)
    (raw : OsmNodeID) (c : Coord) (r : Nat × List (OsmNodeID × Nat) × List Coord)
    (hr : resolveNode lookup gnodes raw c = r)
    (hInv : TableInv coordOf lookup gnodes) (hc : coordOf raw = some c) :
    TableInv coordOf r.2.1 r.2.2 ∧
    alookup r.2.1 raw = some r.1 ∧
    (∀ (k : OsmNodeID) (v : Nat), alookup lookup k = some v → alookup r.2.1 k = some v) ∧
    gnodes.length ≤ r.2.2.length ∧
    (∀ j : Nat, j < gnodes.length → r.2.2[j]? = gnodes[j]?) ∧
    lookup.length ≤ r.2.1.length ∧
    (∃ kk : Nat, kk < r.2.2.length ∧ r.1 = kk % 2 ^ 32 ∧ r.2.2[kk]? = some c) := by
  unfold resolveNode at hr
  cases halo : alookup lookup raw with
  | some i =>
    rw [halo] at hr
    have hr2 : r = (i, lookup, gnodes) := by rw [← hr]
    subst hr2
    refine ⟨hInv, halo, fun k v hv => hv, le_refl _, fun j hj => rfl, le_refl _, ?_⟩
    have hmem : (raw, i) ∈ lookup := alookup_mem halo
    rcases List.mem_iff_getElem.mp hmem with ⟨kk, hkk, hget⟩
    refine ⟨kk, ?_, ?_, ?_⟩
    · have := hInv.len_eq
      simp only
      omega
    · have := hInv.idx_seq kk hkk
      rw [hget] at this
      exact this
    · have := hInv.coord_seq kk hkk
      rw [hget] at this
      simp only at this
      rw [← this, hc]
  | none =>
    rw [halo] at hr
    have hr2 : r = (lookup.length % 2 ^ 32,
        lookup ++ [(raw, lookup.length % 2 ^ 32)], gnodes ++ [c]) := by rw [← hr]
    subst hr2
    simp only
    have hlen := hInv.len_eq
    have hnotin : raw ∉ lookup.map Prod.fst := (alookup_none_iff lookup raw).mp halo
    refine ⟨?_, ?_, ?_, ?_, ?_, ?_, ?_⟩
    · constructor
      · simp [hlen]
      · simp only [List.map_append, List.map_cons, List.map_nil]
        simp [List.nodup_append, hInv.keys_nodup, hnotin]
      · intro k h
        simp only [List.length_append, List.length_cons, List.length_nil] at h
        by_cases hk : k < lookup.length
        · rw [List.getElem_append_left hk]
          exact hInv.idx_seq k hk
        · have hkeq : k = lookup.length := by omega
          subst hkeq
          rw [List.getElem_append_right (le_refl _)]
          simp
      · intro k h
        simp only [List.length_append, List.length_cons, List.length_nil] at h
        by_cases hk : k < lookup.length
        · rw [List.getElem_append_left hk, List.getElem?_append_left (by omega)]
          exact hInv.coord_seq k hk
        · have hkeq : k = lookup.length := by omega
          subst hkeq
          rw [List.getElem_append_right (le_refl _)]
          simp only [Nat.sub_self, List.getElem_cons_zero]
          rw [hlen]
          simp [hc]
    · rw [alookup_append_none _ halo]
      simp
    · intro k v hv
      exact alookup_append_some _ hv
    · simp
    · intro j hj
      rw [List.getElem?_append_left hj]
    · simp
    · refine ⟨gnodes.length, by simp, by rw [hlen], by simp⟩

/-! ### The master invariant of the split state -/

theorem stateInv_init (coordOf : OsmNodeID → Option Coord)
    (hav : Coord → Coord → ℚ) : StateInv coordOf hav initState := by
  refine ⟨tableInv_init coordOf, rfl, ?_, ?_⟩
  · intro j h1 h2
    simp [initState] at h1
  · intro e he
    simp [initState] at he

theorem head?_append_of_ne_nil {α : Type} (l : List α) (a : α) (h : l ≠ []) :
    (l ++ [a]).head? = l.head? := by
  cases l with
  | nil => exact absurd rfl h
  | cons x xs => simp

/-- Preservation of the master invariant through one iteration of the inner
loop, together with the buffer invariant (the buffer is nonempty afterwards
and starts at the coordinate of the raw node opening the current edge) and
name propagation (any new edge carries the name of the current way). -/
theorem stepNode_spec (coordOf : OsmNodeID → Option Coord) (hav : Coord → Coord → ℚ)
    (cnt : OsmNodeID → Option Nat) (numNodes : Nat) (wname : Option String)
    (st : SplitState) (node1 : OsmNodeID) (pts : List Coord)
    (idx : Nat) (node : OsmNodeID)
    (st2 : SplitState) (n1b : OsmNodeID) (ptsb : List Coord)
    (hstep : stepNode coordOf hav cnt numNodes wname st node1 pts idx node =
      some (st2, n1b, ptsb))
    (hInv : StateInv coordOf hav st)
    (hbuf : pts ≠ [] → coordOf node1 = pts.head?)
    (hstart : pts = [] → node = node1) :
    StateInv coordOf hav st2 ∧
    (ptsb ≠ [] ∧ coordOf n1b = ptsb.head?) ∧
    (∀ e ∈ st2.edges, e ∈ st.edges ∨ e.name = wname) ∧
    (∀ e ∈ st.edges, e ∈ st2.edges) := by
  unfold stepNode at hstep
  cases hc : coordOf node with
  | none => rw [hc] at hstep; exact absurd hstep (by simp)
  | some c =>
  rw [hc] at hstep
  dsimp only at hstep
  cases hie : isEndpointM cnt numNodes idx node with
  | none => rw [hie] at hstep; exact absurd hstep (by simp)
  | some b =>
  rw [hie] at hstep
  dsimp only at hstep
  by_cases hguard : b = true ∧ 1 < (pts ++ [c]).length
  · rw [if_pos hguard] at hstep
    have hpts_ne : pts ≠ [] := by
      intro hnil
      subst hnil
      simp at hguard
    have hhd : (pts ++ [c]).head? = pts.head? := head?_append_of_ne_nil pts c hpts_ne
    cases hhd2 : pts.head? with
    | none => simp [List.head?_eq_none_iff] at hhd2; exact absurd hhd2 hpts_ne
    | some hd =>
    have hlst : (pts ++ [c]).getLast? = some c := by simp
    rw [hhd, hhd2, hlst] at hstep
    dsimp only at hstep
    simp only [Option.some.injEq, Prod.mk.injEq] at hstep
    obtain ⟨hst2, hn1b, hptsb⟩ := hstep
    have hcoord1 : coordOf node1 = some hd := by rw [hbuf hpts_ne, hhd2]
    obtain ⟨t1, hres1, hext1, hglen1, hgpref1, hllen1, k1, hk1lt, hk1mod, hk1get⟩ :=
      resolveNode_spec coordOf st.lookup st.gnodes node1 hd
        (resolveNode st.lookup st.gnodes node1 hd) rfl hInv.table hcoord1
    obtain ⟨t2, hres2, hext2, hglen2, hgpref2, hllen2, k2, hk2lt, hk2mod, hk2get⟩ :=
      resolveNode_spec coordOf
        (resolveNode st.lookup st.gnodes node1 hd).2.1
        (resolveNode st.lookup st.gnodes node1 hd).2.2 node c
        (resolveNode (resolveNode st.lookup st.gnodes node1 hd).2.1
          (resolveNode st.lookup st.gnodes node1 hd).2.2 node c) rfl t1 hc
    subst hst2 hn1b hptsb
    refine ⟨?_, ⟨by simp, by simp [hc]⟩, ?_, ?_⟩
    · constructor
      · exact t2
      · simp [hInv.ends_len]
      · intro j h1 h2
        simp only [List.length_append, List.length_cons, List.length_nil] at h1 h2
        by_cases hj : j < st.edges.length
        · have hj2 : j < st.rawEnds.length := by rw [← hInv.ends_len]; exact hj
          rw [List.getElem_append_left hj2, List.getElem_append_left hj]
          obtain ⟨ha, hb⟩ := hInv.edge_refs j hj hj2
          exact ⟨hext2 _ _ (hext1 _ _ ha), hext2 _ _ (hext1 _ _ hb)⟩
        · have hjeq : j = st.edges.length := by omega
          have hjeq2 : j = st.rawEnds.length := by rw [← hInv.ends_len]; omega
          subst hjeq
          rw [List.getElem_append_right (le_refl _),
            List.getElem_append_right (by omega : st.rawEnds.length ≤ st.edges.length)]
          simp only [hInv.ends_len, Nat.sub_self, List.getElem_cons_zero]
          exact ⟨hext2 _ _ hres1, hres2⟩
      · intro e he
        dsimp only at he ⊢
        rcases List.mem_append.mp he with hold | hnew
        · obtain ⟨j1, j2, hj1, hj2, hm1, hm2, hg1, hg2, hlm, hlen2⟩ :=
            hInv.edge_geom e hold
          refine ⟨j1, j2, by omega, by omega, hm1, hm2, ?_, ?_, hlm, hlen2⟩
          · rw [← hg1, ← hgpref1 j1 hj1]
            exact hgpref2 j1 (by omega)
          · rw [← hg2, ← hgpref1 j2 hj2]
            exact hgpref2 j2 (by omega)
        · rw [List.mem_singleton.mp hnew]
          refine ⟨k1, k2, by omega, hk2lt, hk1mod, hk2mod, ?_, ?_, rfl, ?_⟩
          · rw [hgpref2 k1 (by omega), hk1get, hhd, hhd2]
          · rw [hk2get, hlst]
          · simp only [List.length_append, List.length_cons, List.length_nil]
            have := List.length_pos.mpr hpts_ne
            omega
    · intro e he
      rcases List.mem_append.mp he with hold | hnew
      · exact Or.inl hold
      · exact Or.inr (by rw [List.mem_singleton.mp hnew])
    · intro e he
      exact List.mem_append_left _ he
  · rw [if_neg hguard] at hstep
    simp only [Option.some.injEq, Prod.mk.injEq] at hstep
    obtain ⟨hst2, hn1b, hptsb⟩ := hstep
    subst hst2 hn1b hptsb
    refine ⟨hInv, ⟨by simp, ?_⟩, fun e he => Or.inl he, fun e he => he⟩
    cases hp : pts with
    | nil =>
      subst hp
      rw [← hstart rfl, hc]
      simp
    | cons x xs =>
      rw [← hp, head?_append_of_ne_nil pts c (by rw [hp]; simp), hbuf (by rw [hp]; simp)]

/-- Preservation of the master invariant through the inner loop of one way,
with name propagation and monotonicity of the edge list. -/
theorem walkNodes_spec (coordOf : OsmNodeID → Option Coord) (hav : Coord → Coord → ℚ)
    (cnt : OsmNodeID → Option Nat) (numNodes : Nat) (wname : Option String) :
    ∀ (ns : List OsmNodeID) (st : SplitState) (node1 : OsmNodeID)
      (pts : List Coord) (idx : Nat)
      (st2 : SplitState) (n1b : OsmNodeID) (ptsb : List Coord),
    walkNodes coordOf hav cnt numNodes wname st node1 pts idx ns =
      some (st2, n1b, ptsb) →
    StateInv coordOf hav st →
    (pts ≠ [] → coordOf node1 = pts.head?) →
    (pts = [] → ns = [] ∨ ns.head? = some node1) →
    StateInv coordOf hav st2 ∧
    (∀ e ∈ st2.edges, e ∈ st.edges ∨ e.name = wname) ∧
    (∀ e ∈ st.edges, e ∈ st2.edges) := by
  intro ns
  induction ns with
  | nil =>
    intro st node1 pts idx st2 n1b ptsb h hInv hbuf hstart
    unfold walkNodes at h
    simp only [Option.some.injEq, Prod.mk.injEq] at h
    obtain ⟨h1, h2, h3⟩ := h
    subst h1
    exact ⟨hInv, fun e he => Or.inl he, fun e he => he⟩
  | cons n rest ih =>
    intro st node1 pts idx st2 n1b ptsb h hInv hbuf hstart
    unfold walkNodes at h
    cases hs : stepNode coordOf hav cnt numNodes wname st node1 pts idx n with
    | none => rw [hs] at h; exact absurd h (by simp)
    | some res =>
      obtain ⟨stm, n1m, ptsm⟩ := res
      rw [hs] at h
      dsimp only at h
      have hstart2 : pts = [] → n = node1 := by
        intro hnil
        rcases hstart hnil with hcon | hh
        · exact absurd hcon (by simp)
        · simp only [List.head?_cons, Option.some.injEq] at hh
          exact hh
      obtain ⟨hInvm, ⟨hne, hbufm⟩, hnames, hmono⟩ :=
        stepNode_spec coordOf hav cnt numNodes wname st node1 pts idx n
          stm n1m ptsm hs hInv hbuf hstart2
      obtain ⟨hInv2, hnames2, hmono2⟩ :=
        ih stm n1m ptsm (idx + 1) st2 n1b ptsb h hInvm
          (fun _ => hbufm) (fun hh => absurd hh hne)
      refine ⟨hInv2, ?_, fun e he => hmono2 e (hmono e he)⟩
      intro e he
      rcases hnames2 e he with hm | hn
      · exact hnames e hm
      · exact Or.inr hn

/-- Preservation of the master invariant through one way, with name
propagation: every new edge carries the name of that way. -/
theorem processWay_spec (coordOf : OsmNodeID → Option Coord)
    (hav : Coord → Coord → ℚ) (cnt : OsmNodeID → Option Nat)
    (st : SplitState) (w : Way) (st2 : SplitState)
    (h : processWay coordOf hav cnt st w = some st2)
    (hInv : StateInv coordOf hav st) :
    StateInv coordOf hav st2 ∧
    (∀ e ∈ st2.edges, e ∈ st.edges ∨ e.name = w.name) ∧
    (∀ e ∈ st.edges, e ∈ st2.edges) := by
  unfold processWay at h
  cases hh : w.nodes.head? with
  | none => rw [hh] at h; exact absurd h (by simp)
  | some node1 =>
    rw [hh] at h
    dsimp only at h
    cases hw : walkNodes coordOf hav cnt w.nodes.length w.name st node1 [] 0 w.nodes with
    | none => rw [hw] at h; exact absurd h (by simp)
    | some res =>
      obtain ⟨stm, n1m, ptsm⟩ := res
      rw [hw] at h
      simp only [Option.some.injEq] at h
      subst h
      exact walkNodes_spec coordOf hav cnt w.nodes.length w.name w.nodes st node1
        [] 0 stm n1m ptsm hw hInv (fun hc => absurd rfl hc)
        (fun _ => Or.inr hh)

/-- Preservation of the master invariant through the whole splitting pass. -/
theorem runWays_spec (coordOf : OsmNodeID → Option Coord)
    (hav : Coord → Coord → ℚ) (cnt : OsmNodeID → Option Nat) :
    ∀ (ways : List Way) (st : SplitState) (st2 : SplitState),
    runWays coordOf hav cnt st ways = some st2 →
    StateInv coordOf hav st →
    StateInv coordOf hav st2 ∧
    (∀ e ∈ st2.edges, e ∈ st.edges ∨ ∃ w ∈ ways, e.name = w.name) ∧
    (∀ e ∈ st.edges, e ∈ st2.edges) := by
  intro ways
  induction ways with
  | nil =>
    intro st st2 h hInv
    unfold runWays at h
    simp only [Option.some.injEq] at h
    subst h
    exact ⟨hInv, fun e he => Or.inl he, fun e he => he⟩
  | cons w rest ih =>
    intro st st2 h hInv
    unfold runWays at h
    cases hp : processWay coordOf hav cnt st w with
    | none => rw [hp] at h; exact absurd h (by simp)
    | some stm =>
      rw [hp] at h
      dsimp only at h
      obtain ⟨hInvm, hnamesm, hmonom⟩ := processWay_spec coordOf hav cnt st w stm hp hInv
      obtain ⟨hInv2, hnames2, hmono2⟩ := ih stm st2 h hInvm
      refine ⟨hInv2, ?_, fun e he => hmono2 e (hmonom e he)⟩
      intro e he
      rcases hnames2 e he with hm | ⟨w2, hw2, hn2⟩
      · rcases hnamesm e hm with hm2 | hn
        · exact Or.inl hm2
        · exact Or.inr ⟨w, List.mem_cons_self w rest, hn⟩
      · exact Or.inr ⟨w2, List.mem_cons_of_mem w hw2, hn2⟩

/-- The master invariant holds of the final state of a successful run. -/
theorem split_edges_full_inv (hav : Coord → Coord → ℚ)
    (nodes : List (OsmNodeID × Coord)) (ways : List Way) (st : SplitState)
    (h : split_edges_full hav nodes ways = some st) :
    StateInv (alookup nodes) hav st :=
  (runWays_spec (alookup nodes) hav (alookup (buildCounter ways)) ways initState st h
    (stateInv_init (alookup nodes) hav)).1

/-- Decomposition of the splitting pass along an append of way lists. -/
theorem runWays_append (coordOf : OsmNodeID → Option Coord)
    (hav : Coord → Coord → ℚ) (cnt : OsmNodeID → Option Nat) :
    ∀ (l1 l2 : List Way) (st st2 : SplitState),
    runWays coordOf hav cnt st (l1 ++ l2) = some st2 →
    ∃ stm, runWays coordOf hav cnt st l1 = some stm ∧
      runWays coordOf hav cnt stm l2 = some st2 := by
  intro l1
  induction l1 with
  | nil =>
    intro l2 st st2 h
    exact ⟨st, rfl, h⟩
  | cons w rest ih =>
    intro l2 st st2 h
    rw [List.cons_append] at h
    unfold runWays at h
    cases hp : processWay coordOf hav cnt st w with
    | none => rw [hp] at h; exact absurd h (by simp)
    | some stm =>
      rw [hp] at h
      dsimp only at h
      obtain ⟨stmm, h1, h2⟩ := ih l2 stm st2 h
      refine ⟨stmm, ?_, h2⟩
      unfold runWays
      rw [hp]
      exact h1

/-! ### Claim theorems -/

/-- C3: for every edge of the output graph, the first point of its polyline
is exactly (no rounding) the stored coordinate of the graph node referenced
by its first endpoint index, and the last point exactly that of the graph
node referenced by its second endpoint index. Stated under the proviso that
the node list fits the u32 index space, so the NodeID cast does not wrap. -/
theorem C3_edge_geometry_endpoints (hav : Coord → Coord → ℚ)
    (nodes : List (OsmNodeID × Coord)) (ways : List Way) (m : RouteSnapperMap)
    (h : split_edges hav nodes ways = some m)
    (hsmall : m.nodes.length ≤ 2 ^ 32) :
    ∀ e ∈ m.edges, m.nodes[e.node1]? = e.geometry.head? ∧
      m.nodes[e.node2]? = e.geometry.getLast? := by
  unfold split_edges at h
  cases hf : split_edges_full hav nodes ways with
  | none => rw [hf] at h; exact absurd h (by simp)
  | some st =>
    rw [hf] at h
    simp only [Option.some.injEq] at h
    subst h
    dsimp only at hsmall
    have hInv := split_edges_full_inv hav nodes ways st hf
    intro e he
    dsimp only at he ⊢
    obtain ⟨k1, k2, hk1, hk2, hm1, hm2, hg1, hg2, _, _⟩ := hInv.edge_geom e he
    constructor
    · rw [hm1, Nat.mod_eq_of_lt (by omega)]
      exact hg1
    · rw [hm2, Nat.mod_eq_of_lt (by omega)]
      exact hg2

/-- C4: for every edge of the output graph, the stored length_meters is the
haversine length summed over all consecutive coordinate pairs of the full
polyline of that edge (hav being the single-segment great-circle distance),
not merely the distance between its two endpoints. -/
theorem C4_haversine_summed_length (hav : Coord → Coord → ℚ)
    (nodes : List (OsmNodeID × Coord)) (ways : List Way) (m : RouteSnapperMap)
    (h : split_edges hav nodes ways = some m) :
    ∀ e ∈ m.edges, e.length_meters = haversineLength hav e.geometry := by
  unfold split_edges at h
  cases hf : split_edges_full hav nodes ways with
  | none => rw [hf] at h; exact absurd h (by simp)
  | some st =>
    rw [hf] at h
    simp only [Option.some.injEq] at h
    subst h
    have hInv := split_edges_full_inv hav nodes ways st hf
    intro e he
    dsimp only at he
    obtain ⟨_, _, _, _, _, _, _, _, hlm, _⟩ := hInv.edge_geom e he
    exact hlm

/-- C10: throughout split_edges (after every prefix of the way list) the
lookup table and the output node list have equal size, and every emitted
edge references endpoint indices strictly below the final node list length. -/
theorem C10_lookup_lockstep_and_index_bounds (hav : Coord → Coord → ℚ)
    (nodes : List (OsmNodeID × Coord)) (ways : List Way) (st : SplitState)
    (h : split_edges_full hav nodes ways = some st) :
    st.lookup.length = st.gnodes.length ∧
    (∀ n : Nat, ∃ stp : SplitState,
      runWays (alookup nodes) hav (alookup (buildCounter ways)) initState
        (ways.take n) = some stp ∧
      stp.lookup.length = stp.gnodes.length) ∧
    (∀ e ∈ st.edges, e.node1 < st.gnodes.length ∧ e.node2 < st.gnodes.length) := by
  have hInv := split_edges_full_inv hav nodes ways st h
  refine ⟨hInv.table.len_eq, ?_, ?_⟩
  · intro n
    unfold split_edges_full at h
    have h2 : runWays (alookup nodes) hav (alookup (buildCounter ways)) initState
        (ways.take n ++ ways.drop n) = some st := by
      rw [List.take_append_drop]
      exact h
    obtain ⟨stp, h1, _⟩ :=
      runWays_append (alookup nodes) hav (alookup (buildCounter ways))
        (ways.take n) (ways.drop n) initState st h2
    have hInvp :=
      (runWays_spec (alookup nodes) hav (alookup (buildCounter ways))
        (ways.take n) initState stp h1 (stateInv_init (alookup nodes) hav)).1
    exact ⟨stp, h1, hInvp.table.len_eq⟩
  · intro e he
    obtain ⟨k1, k2, hk1, hk2, hm1, hm2, _, _, _, _⟩ := hInv.edge_geom e he
    constructor
    · rw [hm1]
      exact lt_of_le_of_lt (Nat.mod_le k1 (2 ^ 32)) hk1
    · rw [hm2]
      exact lt_of_le_of_lt (Nat.mod_le k2 (2 ^ 32)) hk2

/-- C1: every raw node resolved during splitting has exactly one entry in the
raw-node-id to graph-node-index table (keys never repeat); the assigned
indices are exactly the sequential positions 0, 1, ... of the output node
list, whose entry at position k is exactly the input coordinate of the k-th
resolved raw node; and every emitted edge references, for each of its two raw
endpoint nodes, the index stored in that shared table (hence all edges
terminating at one raw node reference one and the same graph-node index).
Stated under the proviso that the node list fits the u32 index space. -/
theorem C1_dedup_sequential_indices (hav : Coord → Coord → ℚ)
    (nodes : List (OsmNodeID × Coord)) (ways : List Way) (st : SplitState)
    (h : split_edges_full hav nodes ways = some st)
    (hsmall : st.gnodes.length ≤ 2 ^ 32) :
    (st.lookup.map Prod.fst).Nodup ∧
    st.lookup.map Prod.snd = List.range st.gnodes.length ∧
    (∀ (k : Nat) (hk : k < st.lookup.length),
      alookup nodes (st.lookup[k]).1 = st.gnodes[k]?) ∧
    st.edges.length = st.rawEnds.length ∧
    (∀ (j : Nat) (h1 : j < st.edges.length) (h2 : j < st.rawEnds.length),
      alookup st.lookup (st.rawEnds[j]).1 = some (st.edges[j]).node1 ∧
      alookup st.lookup (st.rawEnds[j]).2 = some (st.edges[j]).node2) := by
  have hInv := split_edges_full_inv hav nodes ways st h
  have hlen := hInv.table.len_eq
  refine ⟨hInv.table.keys_nodup, ?_, hInv.table.coord_seq, hInv.ends_len,
    hInv.edge_refs⟩
  apply List.ext_getElem
  · simp [hlen]
  · intro k hk1 hk2
    simp only [List.getElem_map, List.getElem_range]
    have hk : k < st.lookup.length := by simp at hk1; exact hk1
    rw [hInv.table.idx_seq k hk]
    exact Nat.mod_eq_of_lt (by omega)

/-- Witness for C1: the dedup and sequential-index properties evaluated on
the concrete witness input. -/
theorem C1_dedup_sequential_indices_witness :
    split_edges_full havW nodesW waysW = some stW ∧
    (stW.lookup.map Prod.fst).Nodup ∧
    stW.lookup.map Prod.snd = List.range stW.gnodes.length := by
  have heval : split_edges_full havW nodesW waysW = some stW := by
    norm_num [split_edges_full, runWays, processWay, walkNodes, stepNode,
      isEndpointM, resolveNode, buildCounter, incrCounter, haversineLength,
      initState, havW, nodesW, waysW, stW, alookup]
  have h := C1_dedup_sequential_indices havW nodesW waysW stW heval (by decide)
  exact ⟨heval, h.1, h.2.1⟩

/-- Witness for C3: both polyline endpoints of a concrete edge of the witness
output match the stored coordinates of its endpoint graph nodes. -/
theorem C3_edge_geometry_endpoints_witness :
    mW.nodes[eW.node1]? = eW.geometry.head? ∧
    mW.nodes[eW.node2]? = eW.geometry.getLast? := by
  have heval : split_edges havW nodesW waysW = some mW := by
    norm_num [split_edges, split_edges_full, runWays, processWay, walkNodes,
      stepNode, isEndpointM, resolveNode, buildCounter, incrCounter,
      haversineLength, initState, havW, nodesW, waysW, stW, mW, alookup]
  exact C3_edge_geometry_endpoints havW nodesW waysW mW heval (by decide)
    eW (by norm_num [mW, stW, eW])

/-- Witness for C4: the stored length of a concrete edge of the witness
output is the haversine sum over its polyline. -/
theorem C4_haversine_summed_length_witness :
    eW.length_meters = haversineLength havW eW.geometry := by
  have heval : split_edges havW nodesW waysW = some mW := by
    norm_num [split_edges, split_edges_full, runWays, processWay, walkNodes,
      stepNode, isEndpointM, resolveNode, buildCounter, incrCounter,
      haversineLength, initState, havW, nodesW, waysW, stW, mW, alookup]
  exact C4_haversine_summed_length havW nodesW waysW mW heval eW
    (by norm_num [mW, stW, eW])

/-- Witness for C10: lockstep sizes and in-range endpoint indices on the
concrete witness input. -/
theorem C10_lookup_lockstep_and_index_bounds_witness :
    stW.lookup.length = stW.gnodes.length ∧
    eW.node1 < stW.gnodes.length ∧ eW.node2 < stW.gnodes.length := by
  have heval : split_edges_full havW nodesW waysW = some stW := by
    norm_num [split_edges_full, runWays, processWay, walkNodes, stepNode,
      isEndpointM, resolveNode, buildCounter, incrCounter, haversineLength,
      initState, havW, nodesW, waysW, stW, alookup]
  have h := C10_lookup_lockstep_and_index_bounds havW nodesW waysW stW heval
  have hmem : eW ∈ stW.edges := by norm_num [stW, eW]
  exact ⟨h.1, (h.2.2 eW hmem).1, (h.2.2 eW hmem).2⟩

/-- The code test is_endpoint agrees with the intersection predicate of the
spec on every raw node that some retained way references. -/
theorem isEndpointM_eq_spec (ways : List Way) (numNodes idx : Nat)
    (node : OsmNodeID) (href : ∃ w ∈ ways, node ∈ w.nodes) :
    isEndpointM (alookup (buildCounter ways)) numNodes idx node =
      some (decide (isIntersectionSpec ways numNodes idx node)) := by
  unfold isEndpointM
  by_cases hidx : idx = 0 ∨ idx = numNodes - 1
  · rw [if_pos hidx]
    have hspec : isIntersectionSpec ways numNodes idx node := by
      unfold isIntersectionSpec
      tauto
    rw [decide_eq_true hspec]
  · rw [if_neg hidx]
    have hpos : 0 < countRefs ways node := (countRefs_pos_iff ways node).mpr href
    rw [buildCounter_eq, if_neg (by omega)]
    dsimp only
    push_neg at hidx
    have hiff : (1 < countRefs ways node) ↔
        isIntersectionSpec ways numNodes idx node := by
      unfold isIntersectionSpec
      constructor
      · intro h
        exact Or.inr (Or.inr h)
      · rintro (h | h | h)
        · exact absurd h hidx.1
        · exact absurd h hidx.2
        · exact h
    rw [decide_eq_decide.mpr hiff]

/-- C2: a node at 0-based position idx in a way of num_nodes nodes is
classified as an intersection point exactly when idx = 0, idx = num_nodes - 1
or its total reference count across all retained ways (repeats counted) is
above one; and one inner-loop iteration closes off an edge exactly when the
node is such an intersection point and the buffer (after the current
coordinate is pushed) holds more than one coordinate, i.e. was nonempty. -/
theorem C2_intersection_and_closeoff :
    (∀ (ways : List Way) (numNodes idx : Nat) (node : OsmNodeID),
      (∃ w ∈ ways, node ∈ w.nodes) →
      isEndpointM (alookup (buildCounter ways)) numNodes idx node =
        some (decide (isIntersectionSpec ways numNodes idx node))) ∧
    (∀ (ways : List Way) (coordOf : OsmNodeID → Option Coord)
      (hav : Coord → Coord → ℚ) (numNodes : Nat) (wname : Option String)
      (st : SplitState) (node1 : OsmNodeID) (pts : List Coord) (idx : Nat)
      (node : OsmNodeID) (st2 : SplitState) (n1b : OsmNodeID) (ptsb : List Coord),
      stepNode coordOf hav (alookup (buildCounter ways)) numNodes wname
        st node1 pts idx node = some (st2, n1b, ptsb) →
      (∃ w ∈ ways, node ∈ w.nodes) →
      ((∃ e : Edge, st2.edges = st.edges ++ [e]) ↔
        (isIntersectionSpec ways numNodes idx node ∧ pts ≠ []))) := by
  refine ⟨isEndpointM_eq_spec, ?_⟩
  intro ways coordOf hav numNodes wname st node1 pts idx node st2 n1b ptsb
    hstep href
  unfold stepNode at hstep
  cases hc : coordOf node with
  | none => rw [hc] at hstep; exact absurd hstep (by simp)
  | some c =>
  rw [hc] at hstep
  dsimp only at hstep
  rw [isEndpointM_eq_spec ways numNodes idx node href] at hstep
  dsimp only at hstep
  by_cases hguard : decide (isIntersectionSpec ways numNodes idx node) = true ∧
      1 < (pts ++ [c]).length
  · rw [if_pos hguard] at hstep
    have hpts_ne : pts ≠ [] := by
      intro hnil
      subst hnil
      simp at hguard
    have hhd : (pts ++ [c]).head? = pts.head? := head?_append_of_ne_nil pts c hpts_ne
    cases hhd2 : pts.head? with
    | none => simp [List.head?_eq_none_iff] at hhd2; exact absurd hhd2 hpts_ne
    | some hd =>
    have hlst : (pts ++ [c]).getLast? = some c := by simp
    rw [hhd, hhd2, hlst] at hstep
    dsimp only at hstep
    simp only [Option.some.injEq, Prod.mk.injEq] at hstep
    obtain ⟨hst2, hn1b, hptsb⟩ := hstep
    subst hst2
    refine iff_of_true ⟨_, rfl⟩ ⟨of_decide_eq_true hguard.1, hpts_ne⟩
  · rw [if_neg hguard] at hstep
    simp only [Option.some.injEq, Prod.mk.injEq] at hstep
    obtain ⟨hst2, hn1b, hptsb⟩ := hstep
    subst hst2
    refine iff_of_false ?_ ?_
    · rintro ⟨e, he⟩
      have := congrArg List.length he
      simp at this
    · rintro ⟨hspec, hne⟩
      apply hguard
      refine ⟨decide_eq_true hspec, ?_⟩
      simp only [List.length_append, List.length_cons, List.length_nil]
      have := List.length_pos.mpr hne
      omega

/-- Witness for C2: the classification evaluated on the witness ways, once at
an interior shared node (an intersection) and once at an interior unshared
node (not an intersection). -/
theorem C2_intersection_and_closeoff_witness :
    isEndpointM (alookup (buildCounter waysW)) 3 1 2 =
      some (decide (isIntersectionSpec waysW 3 1 2)) ∧
    isEndpointM (alookup (buildCounter waysW)) 4 2 3 =
      some (decide (isIntersectionSpec waysW 4 2 3)) :=
  ⟨C2_intersection_and_closeoff.1 waysW 3 1 2
      ⟨⟨some "Elm St", [1, 2, 3]⟩, by decide, by decide⟩,
    C2_intersection_and_closeoff.1 waysW 4 2 3
      ⟨⟨some "Elm St", [1, 2, 3]⟩, by decide, by decide⟩⟩

/-- Membership in an inserted table comes from the old table or is the new
entry. -/
theorem insertA_mem {κ α : Type} [DecidableEq κ] {m : List (κ × α)} {k0 : κ}
    {v0 : α} {p : κ × α} (h : p ∈ insertA m k0 v0) :
    p ∈ m ∨ p = (k0, v0) := by
  unfold insertA at h
  cases halo : alookup m k0 with
  | some c =>
    rw [halo] at h
    rcases List.mem_map.mp h with ⟨q, hq, hfq⟩
    by_cases hq1 : q.1 = k0
    · rw [if_pos hq1] at hfq
      exact Or.inr hfq.symm
    · rw [if_neg hq1] at hfq
      exact Or.inl (hfq ▸ hq)
  | none =>
    rw [halo] at h
    rcases List.mem_append.mp h with h1 | h1
    · exact Or.inl h1
    · exact Or.inr (List.mem_singleton.mp h1)

/-- Every entry of the way table built by scraping comes from a way element
of the stream that carries the highway tag, and its name field is the name
tag of that element when name retention is on, and absent otherwise. -/
theorem scrape_foldl_ways_mem (rn : Bool) :
    ∀ (elems : List Element) (acc : List (OsmNodeID × Coord) × List (Int × Way))
      (id : Int) (w : Way),
    (id, w) ∈ (elems.foldl (scrapeStep rn) acc).2 →
    (id, w) ∈ acc.2 ∨
      ∃ nids tags, Element.way id nids tags ∈ elems ∧
        (alookup tags "highway").isSome ∧ w.nodes = nids ∧
        w.name = (if rn then alookup tags "name" else none) := by
  intro elems
  induction elems with
  | nil =>
    intro acc id w h
    exact Or.inl h
  | cons elem rest ih =>
    intro acc id w h
    rw [List.foldl_cons] at h
    rcases ih (scrapeStep rn acc elem) id w h with
      h1 | ⟨nids, tags, hmem, hh, hn, hname⟩
    · cases elem with
      | node id2 lon lat =>
        exact Or.inl h1
      | way id2 nids2 tags2 =>
        dsimp only [scrapeStep] at h1
        by_cases hhw : (alookup tags2 "highway").isSome
        · rw [if_pos hhw] at h1
          dsimp only at h1
          rcases insertA_mem h1 with h2 | h2
          · exact Or.inl h2
          · rw [Prod.mk.injEq] at h2
            obtain ⟨rfl, rfl⟩ := h2
            exact Or.inr ⟨nids2, tags2, List.mem_cons_self _ _, hhw, rfl, rfl⟩
        · rw [if_neg hhw] at h1
          exact Or.inl h1
      | relation =>
        exact Or.inl h1
    · exact Or.inr ⟨nids, tags, List.mem_cons_of_mem _ hmem, hh, hn, hname⟩

/-- Every edge of a split result carries the name of one of the ways. -/
theorem split_edges_names (hav : Coord → Coord → ℚ)
    (nodes : List (OsmNodeID × Coord)) (ways : List Way) (m : RouteSnapperMap)
    (h : split_edges hav nodes ways = some m) :
    ∀ e ∈ m.edges, ∃ w ∈ ways, e.name = w.name := by
  unfold split_edges at h
  cases hf : split_edges_full hav nodes ways with
  | none => rw [hf] at h; exact absurd h (by simp)
  | some st =>
    rw [hf] at h
    simp only [Option.some.injEq] at h
    subst h
    intro e he
    dsimp only at he
    rcases (runWays_spec (alookup nodes) hav (alookup (buildCounter ways)) ways
      initState st hf (stateInv_init (alookup nodes) hav)).2.1 e he with
      hinit | hex
    · simp [initState] at hinit
    · exact hex

/-- C6: the way table keeps, for a retained way, the value of the name tag
exactly when name retention is on and the tag is present, and no name
otherwise; every edge split from one way carries a copy of that way name (so
all edges of one way share one name); and with retention off, every edge of
the conversion output has no name at all. -/
theorem C6_name_propagation :
    (∀ (elems : List Element) (rn : Bool) (id : Int) (w : Way),
      (id, w) ∈ (scrape_elements elems rn).2 →
      ∃ nids tags, Element.way id nids tags ∈ elems ∧
        (alookup tags "highway").isSome ∧ w.nodes = nids ∧
        w.name = (if rn then alookup tags "name" else none)) ∧
    (∀ (coordOf : OsmNodeID → Option Coord) (hav : Coord → Coord → ℚ)
      (cnt : OsmNodeID → Option Nat) (st : SplitState) (w : Way)
      (st2 : SplitState),
      processWay coordOf hav cnt st w = some st2 →
      StateInv coordOf hav st →
      ∀ e ∈ st2.edges, e ∈ st.edges ∨ e.name = w.name) ∧
    (∀ (hav : Coord → Coord → ℚ) (elems : List Element) (m : RouteSnapperMap),
      convert_osm hav (Except.ok elems) false = Except.ok (some m) →
      ∀ e ∈ m.edges, e.name = none) := by
  refine ⟨?_, ?_, ?_⟩
  · intro elems rn id w h
    rcases scrape_foldl_ways_mem rn elems ([], []) id w h with h1 | h1
    · simp at h1
    · exact h1
  · intro coordOf hav cnt st w st2 h hInv
    exact (processWay_spec coordOf hav cnt st w st2 h hInv).2.1
  · intro hav elems m h
    unfold convert_osm at h
    dsimp only at h
    simp only [Except.ok.injEq] at h
    intro e he
    rcases split_edges_names hav (scrape_elements elems false).1
      ((scrape_elements elems false).2.map Prod.snd) m h e he with ⟨w, hw, hname⟩
    rcases List.mem_map.mp hw with ⟨⟨id, w2⟩, hmem, hsnd⟩
    rcases scrape_foldl_ways_mem false elems ([], []) id w2 hmem with
      h1 | ⟨nids, tags, _, _, _, hname2⟩
    · simp at h1
    · rw [hname, ← hsnd]
      simpa using hname2

/-- Witness for C6: applying the per-way name propagation on a concrete run
of processWay for the named witness way, at its first emitted edge. -/
theorem C6_name_propagation_witness :
    e0W ∈ initState.edges ∨ e0W.name = some "Elm St" := by
  have heval : processWay (alookup nodesW) havW (alookup (buildCounter waysW))
      initState ⟨some "Elm St", [1, 2, 3]⟩ = some stP6 := by
    norm_num [processWay, walkNodes, stepNode, isEndpointM, resolveNode,
      buildCounter, incrCounter, haversineLength, initState, havW, nodesW,
      waysW, stP6, alookup]
  have hmem : e0W ∈ stP6.edges := by norm_num [stP6, e0W]
  exact C6_name_propagation.2.1 (alookup nodesW) havW
    (alookup (buildCounter waysW)) initState ⟨some "Elm St", [1, 2, 3]⟩ stP6
    heval (stateInv_init (alookup nodesW) havW) e0W hmem

/-- C7: a way element without the highway tag leaves the scraped tables
untouched, hence contributes no graph nodes, no edges and no reference
counts: the whole conversion output is as if the element were absent. -/
theorem C7_non_highway_dropped (pre post : List Element) (id : Int)
    (nids : List OsmNodeID) (tags : List (String × String)) (rn : Bool)
    (hnh : alookup tags "highway" = none) :
    scrape_elements (pre ++ Element.way id nids tags :: post) rn =
      scrape_elements (pre ++ post) rn ∧
    (∀ hav : Coord → Coord → ℚ,
      convert_osm hav (Except.ok (pre ++ Element.way id nids tags :: post)) rn =
        convert_osm hav (Except.ok (pre ++ post)) rn) := by
  have hscrape : scrape_elements (pre ++ Element.way id nids tags :: post) rn =
      scrape_elements (pre ++ post) rn := by
    unfold scrape_elements
    rw [List.foldl_append, List.foldl_append, List.foldl_cons]
    congr 1
    dsimp only [scrapeStep]
    simp [hnh]
  refine ⟨hscrape, fun hav => ?_⟩
  unfold convert_osm
  dsimp only
  rw [hscrape]

/-- Witness for C7: a concrete building-tagged way between two retained
nodes is dropped without a trace by the scraper. -/
theorem C7_non_highway_dropped_witness :
    scrape_elements
        [Element.node 1 0 0, Element.way 20 [1, 2] [("building", "yes")]] true =
      scrape_elements [Element.node 1 0 0] true :=
  (C7_non_highway_dropped [Element.node 1 0 0] [] 20 [1, 2]
    [("building", "yes")] true (by decide)).1

/-- C8: the conversion returns an error exactly when the external parse
failed, propagating that single error unchanged, and on a successful parse it
returns (ok) the full pipeline output: no other error source exists and no
partial graph escapes on failure. -/
theorem C8_error_iff_parse_error (hav : Coord → Coord → ℚ)
    (parsed : Except ParseError (List Element)) (rn : Bool) :
    (∀ e : ParseError,
      convert_osm hav parsed rn = Except.error e ↔ parsed = Except.error e) ∧
    (∀ elems : List Element, parsed = Except.ok elems →
      convert_osm hav parsed rn =
        Except.ok (split_edges hav (scrape_elements elems rn).1
          ((scrape_elements elems rn).2.map Prod.snd))) := by
  constructor
  · intro e
    cases parsed with
    | error e2 => simp [convert_osm]
    | ok elems => simp [convert_osm]
  · intro elems h
    subst h
    rfl

/-- Witness for C8: on the witness element stream the conversion returns ok
with the pipeline output, and a parse error is propagated unchanged. -/
theorem C8_error_iff_parse_error_witness :
    convert_osm havW (Except.ok elemsW) true =
      Except.ok (split_edges havW (scrape_elements elemsW true).1
        ((scrape_elements elemsW true).2.map Prod.snd)) ∧
    convert_osm havW (Except.error (ParseError.mk "bad")) true =
      Except.error (ParseError.mk "bad") :=
  ⟨(C8_error_iff_parse_error havW (Except.ok elemsW) true).2 elemsW rfl,
   ((C8_error_iff_parse_error havW (Except.error (ParseError.mk "bad"))
      true).1 (ParseError.mk "bad")).mpr rfl⟩

/-- One inner-loop iteration cannot abort when the current node has a
coordinate and a counter entry. -/
theorem stepNode_isSome (coordOf : OsmNodeID → Option Coord)
    (hav : Coord → Coord → ℚ) (cnt : OsmNodeID → Option Nat) (numNodes : Nat)
    (wname : Option String) (st : SplitState) (node1 : OsmNodeID)
    (pts : List Coord) (idx : Nat) (node : OsmNodeID)
    (hc : (coordOf node).isSome = true) (hcnt : (cnt node).isSome = true) :
    (stepNode coordOf hav cnt numNodes wname st node1 pts idx node).isSome =
      true := by
  unfold stepNode
  obtain ⟨c, hc2⟩ := Option.isSome_iff_exists.mp hc
  rw [hc2]
  dsimp only
  have hie : ∃ b, isEndpointM cnt numNodes idx node = some b := by
    unfold isEndpointM
    by_cases hidx : idx = 0 ∨ idx = numNodes - 1
    · rw [if_pos hidx]
      exact ⟨true, rfl⟩
    · rw [if_neg hidx]
      obtain ⟨cc, hc3⟩ := Option.isSome_iff_exists.mp hcnt
      rw [hc3]
      exact ⟨decide (1 < cc), rfl⟩
  obtain ⟨b, hb⟩ := hie
  rw [hb]
  dsimp only
  by_cases hguard : b = true ∧ 1 < (pts ++ [c]).length
  · rw [if_pos hguard]
    have hh : (pts ++ [c]).head? = some ((pts ++ [c]).headD c) := by
      cases pts <;> simp
    have hl : (pts ++ [c]).getLast? = some c := by simp
    rw [hh, hl]
    simp
  · rw [if_neg hguard]
    simp

/-- The inner loop of one way cannot abort when every node of the remaining
list has a coordinate and a counter entry. -/
theorem walkNodes_isSome (coordOf : OsmNodeID → Option Coord)
    (hav : Coord → Coord → ℚ) (cnt : OsmNodeID → Option Nat) (numNodes : Nat)
    (wname : Option String) :
    ∀ (ns : List OsmNodeID) (st : SplitState) (node1 : OsmNodeID)
      (pts : List Coord) (idx : Nat),
    (∀ n ∈ ns, (coordOf n).isSome = true ∧ (cnt n).isSome = true) →
    (walkNodes coordOf hav cnt numNodes wname st node1 pts idx ns).isSome =
      true := by
  intro ns
  induction ns with
  | nil =>
    intro st node1 pts idx h
    rfl
  | cons n rest ih =>
    intro st node1 pts idx h
    unfold walkNodes
    have hs := stepNode_isSome coordOf hav cnt numNodes wname st node1 pts idx n
      (h n (List.mem_cons_self n rest)).1 (h n (List.mem_cons_self n rest)).2
    obtain ⟨res, hres⟩ := Option.isSome_iff_exists.mp hs
    obtain ⟨st2, n1b, ptsb⟩ := res
    rw [hres]
    exact ih st2 n1b ptsb (idx + 1) (fun n2 hn2 => h n2 (List.mem_cons_of_mem n hn2))

/-- Processing one way cannot abort when the way is nonempty and every one of
its nodes has a coordinate and a counter entry. -/
theorem processWay_isSome (coordOf : OsmNodeID → Option Coord)
    (hav : Coord → Coord → ℚ) (cnt : OsmNodeID → Option Nat)
    (st : SplitState) (w : Way) (hne : w.nodes ≠ [])
    (h : ∀ n ∈ w.nodes, (coordOf n).isSome = true ∧ (cnt n).isSome = true) :
    (processWay coordOf hav cnt st w).isSome = true := by
  unfold processWay
  cases hh : w.nodes.head? with
  | none =>
    rw [List.head?_eq_none_iff] at hh
    exact absurd hh hne
  | some node1 =>
    dsimp only
    have hw := walkNodes_isSome coordOf hav cnt w.nodes.length w.name w.nodes
      st node1 [] 0 h
    obtain ⟨res, hres⟩ := Option.isSome_iff_exists.mp hw
    obtain ⟨st2, n1b, ptsb⟩ := res
    rw [hres]
    rfl

/-- The splitting pass cannot abort when every way is nonempty and every
referenced node has a coordinate and a counter entry. -/
theorem runWays_isSome (coordOf : OsmNodeID → Option Coord)
    (hav : Coord → Coord → ℚ) (cnt : OsmNodeID → Option Nat) :
    ∀ (ways : List Way) (st : SplitState),
    (∀ w ∈ ways, w.nodes ≠ []) →
    (∀ w ∈ ways, ∀ n ∈ w.nodes,
      (coordOf n).isSome = true ∧ (cnt n).isSome = true) →
    (runWays coordOf hav cnt st ways).isSome = true := by
  intro ways
  induction ways with
  | nil =>
    intro st h1 h2
    rfl
  | cons w rest ih =>
    intro st h1 h2
    unfold runWays
    have hp := processWay_isSome coordOf hav cnt st w
      (h1 w (List.mem_cons_self w rest)) (h2 w (List.mem_cons_self w rest))
    obtain ⟨st2, hst2⟩ := Option.isSome_iff_exists.mp hp
    rw [hst2]
    exact ih st2 (fun w2 hw2 => h1 w2 (List.mem_cons_of_mem w hw2))
      (fun w2 hw2 => h2 w2 (List.mem_cons_of_mem w hw2))

/-- C9: split_edges is total (no panic is reachable) under the preconditions
that every way in the table has a nonempty node list and every raw node
referenced by a way is present in the node table; and without the second
precondition the unchecked coordinate lookup aborts the whole conversion
(modelled as none) instead of skipping the offending way, shown on a
concrete dangling reference. -/
theorem C9_totality_under_preconditions :
    (∀ (hav : Coord → Coord → ℚ) (nodes : List (OsmNodeID × Coord))
      (ways : List Way),
      (∀ w ∈ ways, w.nodes ≠ []) →
      (∀ w ∈ ways, ∀ n ∈ w.nodes, (alookup nodes n).isSome = true) →
      (split_edges hav nodes ways).isSome = true) ∧
    split_edges havW nodesW [⟨none, [1, 9]⟩] = none := by
  constructor
  · intro hav nodes ways h1 h2
    unfold split_edges split_edges_full
    have hcnt : ∀ w ∈ ways, ∀ n ∈ w.nodes,
        ((alookup (buildCounter ways)) n).isSome = true := by
      intro w hw n hn
      rw [buildCounter_eq]
      have hpos : 0 < countRefs ways n := (countRefs_pos_iff ways n).mpr ⟨w, hw, hn⟩
      rw [if_neg (by omega)]
      rfl
    have hr := runWays_isSome (alookup nodes) hav (alookup (buildCounter ways))
      ways initState h1 (fun w hw n hn => ⟨h2 w hw n hn, hcnt w hw n hn⟩)
    obtain ⟨st, hst⟩ := Option.isSome_iff_exists.mp hr
    rw [hst]
    rfl
  · norm_num [split_edges, split_edges_full, runWays, processWay, walkNodes,
      stepNode, isEndpointM, resolveNode, buildCounter, incrCounter,
      haversineLength, initState, havW, nodesW, alookup]

/-- Witness for C9: the totality preconditions hold of the witness input and
the conversion indeed returns a graph. -/
theorem C9_totality_under_preconditions_witness :
    (split_edges havW nodesW waysW).isSome = true :=
  C9_totality_under_preconditions.1 havW nodesW waysW (by decide) (by decide)

/-- One loop iteration simulates its state-erased data version: the data
step succeeds with the same st-independent loop state, and the edges (viewed
index-free) and ghost raw endpoints grow by exactly the emitted data. -/
theorem stepNode_to_data (coordOf : OsmNodeID → Option Coord)
    (hav : Coord → Coord → ℚ) (cnt : OsmNodeID → Option Nat) (numNodes : Nat)
    (wname : Option String) (st : SplitState) (node1 : OsmNodeID)
    (pts : List Coord) (idx : Nat) (node : OsmNodeID)
    (st2 : SplitState) (n1b : OsmNodeID) (ptsb : List Coord)
    (hstep : stepNode coordOf hav cnt numNodes wname st node1 pts idx node =
      some (st2, n1b, ptsb)) :
    ∃ em, stepData coordOf cnt numNodes node1 pts idx node =
        some (em, n1b, ptsb) ∧
      st2.edges.map edata = st.edges.map edata ++
        em.toList.map (fun d => (d.1, haversineLength hav d.1, wname)) ∧
      st2.rawEnds = st.rawEnds ++ em.toList.map (fun d => (d.2.1, d.2.2)) := by
  unfold stepNode at hstep
  unfold stepData
  cases hc : coordOf node with
  | none => rw [hc] at hstep; exact absurd hstep (by simp)
  | some c =>
  rw [hc] at hstep
  dsimp only at hstep ⊢
  cases hie : isEndpointM cnt numNodes idx node with
  | none => rw [hie] at hstep; exact absurd hstep (by simp)
  | some b =>
  rw [hie] at hstep
  dsimp only at hstep ⊢
  by_cases hguard : b = true ∧ 1 < (pts ++ [c]).length
  · rw [if_pos hguard] at hstep ⊢
    have hpts_ne : pts ≠ [] := by
      intro hnil
      subst hnil
      simp at hguard
    have hhd : (pts ++ [c]).head? = pts.head? := head?_append_of_ne_nil pts c hpts_ne
    cases hhd2 : pts.head? with
    | none => simp [List.head?_eq_none_iff] at hhd2; exact absurd hhd2 hpts_ne
    | some hd =>
    have hlst : (pts ++ [c]).getLast? = some c := by simp
    rw [hhd, hhd2, hlst] at hstep ⊢
    dsimp only at hstep ⊢
    simp only [Option.some.injEq, Prod.mk.injEq] at hstep
    obtain ⟨hst2, hn1b, hptsb⟩ := hstep
    subst hst2 hn1b hptsb
    refine ⟨some (pts ++ [c], node1, node), rfl, ?_, by simp⟩
    simp [edata]
  · rw [if_neg hguard] at hstep ⊢
    simp only [Option.some.injEq, Prod.mk.injEq] at hstep
    obtain ⟨hst2, hn1b, hptsb⟩ := hstep
    subst hst2 hn1b hptsb
    exact ⟨none, rfl, by simp, by simp⟩

/-- The inner loop simulates its state-erased data version. -/
theorem walkNodes_to_data (coordOf : OsmNodeID → Option Coord)
    (hav : Coord → Coord → ℚ) (cnt : OsmNodeID → Option Nat) (numNodes : Nat)
    (wname : Option String) :
    ∀ (ns : List OsmNodeID) (st : SplitState) (node1 : OsmNodeID)
      (pts : List Coord) (idx : Nat) (st2 : SplitState) (n1b : OsmNodeID)
      (ptsb : List Coord),
    walkNodes coordOf hav cnt numNodes wname st node1 pts idx ns =
      some (st2, n1b, ptsb) →
    ∃ ds, walkData coordOf cnt numNodes node1 pts idx ns =
        some (ds, n1b, ptsb) ∧
      st2.edges.map edata = st.edges.map edata ++
        ds.map (fun d => (d.1, haversineLength hav d.1, wname)) ∧
      st2.rawEnds = st.rawEnds ++ ds.map (fun d => (d.2.1, d.2.2)) := by
  intro ns
  induction ns with
  | nil =>
    intro st node1 pts idx st2 n1b ptsb h
    unfold walkNodes at h
    simp only [Option.some.injEq, Prod.mk.injEq] at h
    obtain ⟨h1, h2, h3⟩ := h
    subst h1 h2 h3
    exact ⟨[], rfl, by simp, by simp⟩
  | cons n rest ih =>
    intro st node1 pts idx st2 n1b ptsb h
    unfold walkNodes at h
    cases hs : stepNode coordOf hav cnt numNodes wname st node1 pts idx n with
    | none => rw [hs] at h; exact absurd h (by simp)
    | some res =>
    obtain ⟨stm, n1m, ptsm⟩ := res
    rw [hs] at h
    dsimp only at h
    obtain ⟨em, hem, hedm, hrem⟩ :=
      stepNode_to_data coordOf hav cnt numNodes wname st node1 pts idx n
        stm n1m ptsm hs
    obtain ⟨ds, hds, hed2, hre2⟩ := ih stm n1m ptsm (idx + 1) st2 n1b ptsb h
    refine ⟨em.toList ++ ds, ?_, ?_, ?_⟩
    · unfold walkData
      rw [hem]
      dsimp only
      rw [hds]
    · rw [hed2, hedm, List.map_append, List.append_assoc]
    · rw [hre2, hrem, List.map_append, List.append_assoc]

/-- Processing one way simulates its state-erased data version. -/
theorem processWay_to_data (coordOf : OsmNodeID → Option Coord)
    (hav : Coord → Coord → ℚ) (cnt : OsmNodeID → Option Nat)
    (st : SplitState) (w : Way) (st2 : SplitState)
    (h : processWay coordOf hav cnt st w = some st2) :
    ∃ ds, wayData coordOf cnt w = some ds ∧
      st2.edges.map edata = st.edges.map edata ++
        ds.map (fun d => (d.1, haversineLength hav d.1, w.name)) ∧
      st2.rawEnds = st.rawEnds ++ ds.map (fun d => (d.2.1, d.2.2)) := by
  unfold processWay at h
  unfold wayData
  cases hh : w.nodes.head? with
  | none => rw [hh] at h; exact absurd h (by simp)
  | some node1 =>
  rw [hh] at h
  dsimp only at h ⊢
  cases hw : walkNodes coordOf hav cnt w.nodes.length w.name st node1 [] 0
      w.nodes with
  | none => rw [hw] at h; exact absurd h (by simp)
  | some res =>
  obtain ⟨stm, n1m, ptsm⟩ := res
  rw [hw] at h
  simp only [Option.some.injEq] at h
  subst h
  obtain ⟨ds, hds, hed, hre⟩ := walkNodes_to_data coordOf hav cnt
    w.nodes.length w.name w.nodes st node1 [] 0 stm n1m ptsm hw
  rw [hds]
  exact ⟨ds, rfl, hed, hre⟩

/-- The whole splitting pass factorizes through the per-way data: the final
index-free edge list is the concatenation of every way's own contribution,
and likewise for the ghost raw endpoint pairs. -/
theorem runWays_to_data (coordOf : OsmNodeID → Option Coord)
    (hav : Coord → Coord → ℚ) (cnt : OsmNodeID → Option Nat) :
    ∀ (ways : List Way) (st st2 : SplitState),
    runWays coordOf hav cnt st ways = some st2 →
    st2.edges.map edata = st.edges.map edata ++
      ways.flatMap (wayEdata coordOf cnt hav) ∧
    st2.rawEnds = st.rawEnds ++ ways.flatMap (wayEnds coordOf cnt) := by
  intro ways
  induction ways with
  | nil =>
    intro st st2 h
    unfold runWays at h
    simp only [Option.some.injEq] at h
    subst h
    simp
  | cons w rest ih =>
    intro st st2 h
    unfold runWays at h
    cases hp : processWay coordOf hav cnt st w with
    | none => rw [hp] at h; exact absurd h (by simp)
    | some stm =>
    rw [hp] at h
    dsimp only at h
    obtain ⟨ds, hds, hed, hre⟩ := processWay_to_data coordOf hav cnt st w stm hp
    obtain ⟨hed2, hre2⟩ := ih stm st2 h
    have hwe : wayEdata coordOf cnt hav w =
        ds.map (fun d => (d.1, haversineLength hav d.1, w.name)) := by
      unfold wayEdata
      rw [hds]
      rfl
    have hwn : wayEnds coordOf cnt w = ds.map (fun d => (d.2.1, d.2.2)) := by
      unfold wayEnds
      rw [hds]
      rfl
    constructor
    · rw [hed2, hed, List.flatMap_cons, hwe, List.append_assoc]
    · rw [hre2, hre, List.flatMap_cons, hwn, List.append_assoc]

/-- A key of the table returned by resolveNode is an old key or the resolved
raw id. -/
theorem resolveNode_mem_keys (l : List (OsmNodeID × Nat)) (g : List Coord)
    (raw : OsmNodeID) (c : Coord) (p : OsmNodeID × Nat)
    (h : p ∈ (resolveNode l g raw c).2.1) : p ∈ l ∨ p.1 = raw := by
  unfold resolveNode at h
  cases halo : alookup l raw with
  | some i =>
    rw [halo] at h
    exact Or.inl h
  | none =>
    rw [halo] at h
    dsimp only at h
    rcases List.mem_append.mp h with h1 | h1
    · exact Or.inl h1
    · rw [List.mem_singleton.mp h1]
      exact Or.inr rfl

/-- One loop iteration preserves: every lookup key occurs in some ghost raw
endpoint pair. -/
theorem stepNode_keys (coordOf : OsmNodeID → Option Coord)
    (hav : Coord → Coord → ℚ) (cnt : OsmNodeID → Option Nat) (numNodes : Nat)
    (wname : Option String) (st : SplitState) (node1 : OsmNodeID)
    (pts : List Coord) (idx : Nat) (node : OsmNodeID)
    (st2 : SplitState) (n1b : OsmNodeID) (ptsb : List Coord)
    (hstep : stepNode coordOf hav cnt numNodes wname st node1 pts idx node =
      some (st2, n1b, ptsb))
    (hk : ∀ p ∈ st.lookup, ∃ q ∈ st.rawEnds, p.1 = q.1 ∨ p.1 = q.2) :
    ∀ p ∈ st2.lookup, ∃ q ∈ st2.rawEnds, p.1 = q.1 ∨ p.1 = q.2 := by
  unfold stepNode at hstep
  cases hc : coordOf node with
  | none => rw [hc] at hstep; exact absurd hstep (by simp)
  | some c =>
  rw [hc] at hstep
  dsimp only at hstep
  cases hie : isEndpointM cnt numNodes idx node with
  | none => rw [hie] at hstep; exact absurd hstep (by simp)
  | some b =>
  rw [hie] at hstep
  dsimp only at hstep
  by_cases hguard : b = true ∧ 1 < (pts ++ [c]).length
  · rw [if_pos hguard] at hstep
    have hpts_ne : pts ≠ [] := by
      intro hnil
      subst hnil
      simp at hguard
    have hhd : (pts ++ [c]).head? = pts.head? := head?_append_of_ne_nil pts c hpts_ne
    cases hhd2 : pts.head? with
    | none => simp [List.head?_eq_none_iff] at hhd2; exact absurd hhd2 hpts_ne
    | some hd =>
    have hlst : (pts ++ [c]).getLast? = some c := by simp
    rw [hhd, hhd2, hlst] at hstep
    dsimp only at hstep
    simp only [Option.some.injEq, Prod.mk.injEq] at hstep
    obtain ⟨hst2, hn1b, hptsb⟩ := hstep
    subst hst2
    intro p hp
    dsimp only at hp ⊢
    rcases resolveNode_mem_keys _ _ _ _ p hp with hp1 | hp1
    · rcases resolveNode_mem_keys _ _ _ _ p hp1 with hp2 | hp2
      · obtain ⟨q, hq, hor⟩ := hk p hp2
        exact ⟨q, List.mem_append_left _ hq, hor⟩
      · exact ⟨(node1, node),
          List.mem_append_right _ (List.mem_singleton.mpr rfl), Or.inl hp2⟩
    · exact ⟨(node1, node),
        List.mem_append_right _ (List.mem_singleton.mpr rfl), Or.inr hp1⟩
  · rw [if_neg hguard] at hstep
    simp only [Option.some.injEq, Prod.mk.injEq] at hstep
    obtain ⟨hst2, hn1b, hptsb⟩ := hstep
    subst hst2
    exact hk

/-- The inner loop preserves the keys-from-ends property. -/
theorem walkNodes_keys (coordOf : OsmNodeID → Option Coord)
    (hav : Coord → Coord → ℚ) (cnt : OsmNodeID → Option Nat) (numNodes : Nat)
    (wname : Option String) :
    ∀ (ns : List OsmNodeID) (st : SplitState) (node1 : OsmNodeID)
      (pts : List Coord) (idx : Nat) (st2 : SplitState) (n1b : OsmNodeID)
      (ptsb : List Coord),
    walkNodes coordOf hav cnt numNodes wname st node1 pts idx ns =
      some (st2, n1b, ptsb) →
    (∀ p ∈ st.lookup, ∃ q ∈ st.rawEnds, p.1 = q.1 ∨ p.1 = q.2) →
    ∀ p ∈ st2.lookup, ∃ q ∈ st2.rawEnds, p.1 = q.1 ∨ p.1 = q.2 := by
  intro ns
  induction ns with
  | nil =>
    intro st node1 pts idx st2 n1b ptsb h hk
    unfold walkNodes at h
    simp only [Option.some.injEq, Prod.mk.injEq] at h
    obtain ⟨h1, h2, h3⟩ := h
    subst h1
    exact hk
  | cons n rest ih =>
    intro st node1 pts idx st2 n1b ptsb h hk
    unfold walkNodes at h
    cases hs : stepNode coordOf hav cnt numNodes wname st node1 pts idx n with
    | none => rw [hs] at h; exact absurd h (by simp)
    | some res =>
    obtain ⟨stm, n1m, ptsm⟩ := res
    rw [hs] at h
    dsimp only at h
    exact ih stm n1m ptsm (idx + 1) st2 n1b ptsb h
      (stepNode_keys coordOf hav cnt numNodes wname st node1 pts idx n
        stm n1m ptsm hs hk)

/-- Processing one way preserves the keys-from-ends property. -/
theorem processWay_keys (coordOf : OsmNodeID → Option Coord)
    (hav : Coord → Coord → ℚ) (cnt : OsmNodeID → Option Nat)
    (st : SplitState) (w : Way) (st2 : SplitState)
    (h : processWay coordOf hav cnt st w = some st2)
    (hk : ∀ p ∈ st.lookup, ∃ q ∈ st.rawEnds, p.1 = q.1 ∨ p.1 = q.2) :
    ∀ p ∈ st2.lookup, ∃ q ∈ st2.rawEnds, p.1 = q.1 ∨ p.1 = q.2 := by
  unfold processWay at h
  cases hh : w.nodes.head? with
  | none => rw [hh] at h; exact absurd h (by simp)
  | some node1 =>
  rw [hh] at h
  dsimp only at h
  cases hw : walkNodes coordOf hav cnt w.nodes.length w.name st node1 [] 0
      w.nodes with
  | none => rw [hw] at h; exact absurd h (by simp)
  | some res =>
  obtain ⟨stm, n1m, ptsm⟩ := res
  rw [hw] at h
  simp only [Option.some.injEq] at h
  subst h
  exact walkNodes_keys coordOf hav cnt w.nodes.length w.name w.nodes st node1
    [] 0 stm n1m ptsm hw hk

/-- The whole splitting pass establishes the keys-from-ends property. -/
theorem runWays_keys (coordOf : OsmNodeID → Option Coord)
    (hav : Coord → Coord → ℚ) (cnt : OsmNodeID → Option Nat) :
    ∀ (ways : List Way) (st st2 : SplitState),
    runWays coordOf hav cnt st ways = some st2 →
    (∀ p ∈ st.lookup, ∃ q ∈ st.rawEnds, p.1 = q.1 ∨ p.1 = q.2) →
    ∀ p ∈ st2.lookup, ∃ q ∈ st2.rawEnds, p.1 = q.1 ∨ p.1 = q.2 := by
  intro ways
  induction ways with
  | nil =>
    intro st st2 h hk
    unfold runWays at h
    simp only [Option.some.injEq] at h
    subst h
    exact hk
  | cons w rest ih =>
    intro st st2 h hk
    unfold runWays at h
    cases hp : processWay coordOf hav cnt st w with
    | none => rw [hp] at h; exact absurd h (by simp)
    | some stm =>
    rw [hp] at h
    dsimp only at h
    exact ih stm st2 h (processWay_keys coordOf hav cnt st w stm hp hk)

/-- C5 counterexample: with one node table and two disjoint two-node ways,
swapping the processing order changes the resulting set of edges: edge
records carry graph-node indices assigned in discovery order, so the first
edge of one run equals no edge of the other run, although the way lists are
permutations of each other and both runs succeed. -/
theorem C5_order_counterexample :
    waysP1.Perm waysP2 ∧
    split_edges havW nodesW waysP1 = some mP1 ∧
    split_edges havW nodesW waysP2 = some mP2 ∧
    eP ∈ mP1.edges ∧ eP ∉ mP2.edges := by
  refine ⟨by decide, ?_, ?_, by norm_num [mP1, eP], by norm_num [mP2, eP]⟩
  · norm_num [split_edges, split_edges_full, runWays, processWay, walkNodes,
      stepNode, isEndpointM, resolveNode, buildCounter, incrCounter,
      haversineLength, initState, havW, nodesW, waysP1, mP1, alookup]
  · norm_num [split_edges, split_edges_full, runWays, processWay, walkNodes,
      stepNode, isEndpointM, resolveNode, buildCounter, incrCounter,
      haversineLength, initState, havW, nodesW, waysP2, mP2, alookup]

/-- C5 (amended): for any two permutations of the way processing order, the
resulting multiset of edges is the same once edges are identified
index-freely by (polyline, length, name) — equivalently with their endpoint
indices dereferenced through the node list — and the multiset of graph-node
coordinates is the same; only insertion order and index assignment differ. -/
theorem C5_order_permutation_amended (hav : Coord → Coord → ℚ)
    (nodes : List (OsmNodeID × Coord)) (ways1 ways2 : List Way)
    (m1 m2 : RouteSnapperMap)
    (hperm : ways1.Perm ways2)
    (h1 : split_edges hav nodes ways1 = some m1)
    (h2 : split_edges hav nodes ways2 = some m2) :
    (m1.edges.map edata).Perm (m2.edges.map edata) ∧
    m1.nodes.Perm m2.nodes := by
  unfold split_edges at h1 h2
  cases hf1 : split_edges_full hav nodes ways1 with
  | none => rw [hf1] at h1; exact absurd h1 (by simp)
  | some s1 =>
  cases hf2 : split_edges_full hav nodes ways2 with
  | none => rw [hf2] at h2; exact absurd h2 (by simp)
  | some s2 =>
  rw [hf1] at h1
  rw [hf2] at h2
  simp only [Option.some.injEq] at h1 h2
  subst h1 h2
  dsimp only
  have hInv1 := split_edges_full_inv hav nodes ways1 s1 hf1
  have hInv2 := split_edges_full_inv hav nodes ways2 s2 hf2
  unfold split_edges_full at hf1 hf2
  have hcnt : alookup (buildCounter ways2) = alookup (buildCounter ways1) := by
    funext n
    rw [buildCounter_eq, buildCounter_eq]
    have hcr : countRefs ways1 n = countRefs ways2 n := by
      unfold countRefs
      exact (hperm.map (fun w => w.nodes.count n)).sum_eq
    rw [hcr]
  rw [hcnt] at hf2
  obtain ⟨hed1, hre1⟩ := runWays_to_data (alookup nodes) hav
    (alookup (buildCounter ways1)) ways1 initState s1 hf1
  obtain ⟨hed2, hre2⟩ := runWays_to_data (alookup nodes) hav
    (alookup (buildCounter ways1)) ways2 initState s2 hf2
  simp only [initState, List.map_nil, List.nil_append] at hed1 hre1 hed2 hre2
  have hedges : (s1.edges.map edata).Perm (s2.edges.map edata) := by
    rw [hed1, hed2]
    exact hperm.flatMap_right _
  have hre : s1.rawEnds.Perm s2.rawEnds := by
    rw [hre1, hre2]
    exact hperm.flatMap_right _
  refine ⟨hedges, ?_⟩
  have hkeys1 : ∀ p ∈ s1.lookup, ∃ q ∈ s1.rawEnds, p.1 = q.1 ∨ p.1 = q.2 :=
    runWays_keys (alookup nodes) hav (alookup (buildCounter ways1)) ways1
      initState s1 hf1 (by intro p hp; simp [initState] at hp)
  have hkeys2 : ∀ p ∈ s2.lookup, ∃ q ∈ s2.rawEnds, p.1 = q.1 ∨ p.1 = q.2 :=
    runWays_keys (alookup nodes) hav (alookup (buildCounter ways1)) ways2
      initState s2 hf2 (by intro p hp; simp [initState] at hp)
  have hmem1 : ∀ r : OsmNodeID, r ∈ s1.lookup.map Prod.fst ↔
      ∃ q ∈ s1.rawEnds, r = q.1 ∨ r = q.2 := by
    intro r
    constructor
    · intro hr
      rcases List.mem_map.mp hr with ⟨p, hp, hfst⟩
      obtain ⟨q, hq, hor⟩ := hkeys1 p hp
      exact ⟨q, hq, by rw [← hfst]; exact hor⟩
    · rintro ⟨q, hq, hor⟩
      rcases List.mem_iff_getElem.mp hq with ⟨j, hj, hget⟩
      have hj2 : j < s1.edges.length := by rw [hInv1.ends_len]; exact hj
      obtain ⟨ha, hb⟩ := hInv1.edge_refs j hj2 hj
      rw [hget] at ha hb
      rcases hor with hor | hor
      · subst hor
        rw [← alookup_isSome_iff]
        rw [ha]
        rfl
      · subst hor
        rw [← alookup_isSome_iff]
        rw [hb]
        rfl
  have hmem2 : ∀ r : OsmNodeID, r ∈ s2.lookup.map Prod.fst ↔
      ∃ q ∈ s2.rawEnds, r = q.1 ∨ r = q.2 := by
    intro r
    constructor
    · intro hr
      rcases List.mem_map.mp hr with ⟨p, hp, hfst⟩
      obtain ⟨q, hq, hor⟩ := hkeys2 p hp
      exact ⟨q, hq, by rw [← hfst]; exact hor⟩
    · rintro ⟨q, hq, hor⟩
      rcases List.mem_iff_getElem.mp hq with ⟨j, hj, hget⟩
      have hj2 : j < s2.edges.length := by rw [hInv2.ends_len]; exact hj
      obtain ⟨ha, hb⟩ := hInv2.edge_refs j hj2 hj
      rw [hget] at ha hb
      rcases hor with hor | hor
      · subst hor
        rw [← alookup_isSome_iff]
        rw [ha]
        rfl
      · subst hor
        rw [← alookup_isSome_iff]
        rw [hb]
        rfl
  have hkperm : (s1.lookup.map Prod.fst).Perm (s2.lookup.map Prod.fst) := by
    rw [List.perm_ext_iff_of_nodup hInv1.table.keys_nodup hInv2.table.keys_nodup]
    intro r
    rw [hmem1 r, hmem2 r]
    constructor
    · rintro ⟨q, hq, hor⟩
      exact ⟨q, hre.mem_iff.mp hq, hor⟩
    · rintro ⟨q, hq, hor⟩
      exact ⟨q, hre.mem_iff.mpr hq, hor⟩
  have hmap1 : s1.gnodes.map some =
      (s1.lookup.map Prod.fst).map (alookup nodes) := by
    apply List.ext_getElem
    · simp [hInv1.table.len_eq]
    · intro k hk1 hk2
      simp only [List.getElem_map]
      have hk : k < s1.lookup.length := by
        simp only [List.length_map] at hk2
        exact hk2
      have hcs := hInv1.table.coord_seq k hk
      rw [List.getElem?_eq_getElem (by rw [← hInv1.table.len_eq]; exact hk)] at hcs
      exact hcs.symm
  have hmap2 : s2.gnodes.map some =
      (s2.lookup.map Prod.fst).map (alookup nodes) := by
    apply List.ext_getElem
    · simp [hInv2.table.len_eq]
    · intro k hk1 hk2
      simp only [List.getElem_map]
      have hk : k < s2.lookup.length := by
        simp only [List.length_map] at hk2
        exact hk2
      have hcs := hInv2.table.coord_seq k hk
      rw [List.getElem?_eq_getElem (by rw [← hInv2.table.len_eq]; exact hk)] at hcs
      exact hcs.symm
  have hsome : (s1.gnodes.map some).Perm (s2.gnodes.map some) := by
    rw [hmap1, hmap2]
    exact hkperm.map (alookup nodes)
  have hmul : (Multiset.map some (s1.gnodes : Multiset Coord)) =
      Multiset.map some (s2.gnodes : Multiset Coord) := by
    rw [Multiset.map_coe, Multiset.map_coe]
    exact Multiset.coe_eq_coe.mpr hsome
  exact Multiset.coe_eq_coe.mp
    (Multiset.map_injective (Option.some_injective Coord) hmul)

/-- Witness for the amended C5 on the concrete swapped-order runs. -/
theorem C5_order_permutation_amended_witness :
    (mP1.edges.map edata).Perm (mP2.edges.map edata) ∧
    mP1.nodes.Perm mP2.nodes :=
  C5_order_permutation_amended havW nodesW waysP1 waysP2 mP1 mP2 (by decide)
    (by norm_num [split_edges, split_edges_full, runWays, processWay,
      walkNodes, stepNode, isEndpointM, resolveNode, buildCounter,
      incrCounter, haversineLength, initState, havW, nodesW, waysP1, mP1,
      alookup])
    (by norm_num [split_edges, split_edges_full, runWays, processWay,
      walkNodes, stepNode, isEndpointM, resolveNode, buildCounter,
      incrCounter, haversineLength, initState, havW, nodesW, waysP2, mP2,
      alookup])

end RouteSnapper
